import Mathlib

/-!
# fixasm: stripping redundant package prefixes from Go assembly files

A shallow embedding of `main.go` (functions `run` and `processFile`) together
with the parts of the Go standard library they call.

Modelling conventions.

* Go strings and byte slices are modelled by their sequence of Unicode code
  points (`Str = List Char`), i.e. all text is taken to be valid UTF-8.  Byte
  lengths, where the library depends on them (the `bufio.Scanner` token limit),
  are computed with `Char.utf8Size`.
* The process-wide `*dryRun` flag is an explicit `Bool` parameter.
* The file system is a partial map from full path names to regular files; the
  directory tree served by `os.DirFS(root)` is a `DirEntry` value whose
  directory listings are in the order `ReadDir` returns them (sorted by
  name).
* Effects are recorded in a `World`: the file system together with a
  chronological trace of log lines, system calls and `processFile` calls.
* Go `error` values are `Option Err` (`none` is `nil`).
-/

namespace FixAsm

/-- Text: a Go `string` or `[]byte` holding valid UTF-8, as code points. -/
abbrev Str := List Char

/-! ## Package `strings` -/

/-- Go `strings.Split(s, sep)` for a one-character separator: the substrings
between the separators; always at least one element. -/
def Split : Str → Char → List Str
  | [], _ => [[]]
  | c :: cs, sep =>
    if c = sep then [] :: Split cs sep
    else
      match Split cs sep with
      | [] => [[c]]
      | w :: ws => (c :: w) :: ws

/-- Go `strings.Join(elems, sep)`. -/
def Join : List Str → Str → Str
  | [], _ => []
  | [a], _ => a
  | a :: b :: rest, sep => a ++ sep ++ Join (b :: rest) sep

/-- Go `strings.HasSuffix(s, suffix)`:
`len(s) >= len(suffix) && s[len(s)-len(suffix):] == suffix`. -/
def HasSuffix (s suffix : Str) : Bool :=
  decide (suffix.length ≤ s.length) && (s.drop (s.length - suffix.length) == suffix)

/-! ## Package `regexp` (a fragment)

Patterns are sequences of single-character atoms (a literal or `.`), each with
an optional repetition operator `*`, `+` or `?`.  Matching is leftmost-first
with greedy repetition, as in Go.  A pattern outside this fragment (groups,
alternation, classes, anchors, counted or lazy repetition) is rejected by
`MustCompile`; the patterns `processFile` builds are always inside it. -/

/-- The bytes `regexp.QuoteMeta` escapes: the string
"\\.+*?()|[]{}^$" of the library's `specialBytes` table. -/
def special (c : Char) : Bool :=
  ['\\', '.', '+', '*', '?', '(', ')', '|', '[', ']', '{', '}', '^', '$'].contains c

/-- Go `regexp.QuoteMeta(s)`: every special character is preceded by a
backslash, every other character is copied. -/
def QuoteMeta : Str → Str
  | [] => []
  | c :: cs => if special c then '\\' :: c :: QuoteMeta cs else c :: QuoteMeta cs

/-- A single-character matcher. -/
inductive Atom where
  | lit (c : Char)
  | any
  deriving DecidableEq, Repr

/-- A repetition operator. -/
inductive Rep where
  | one
  | star
  | plus
  | opt
  deriving DecidableEq, Repr

/-- One atom with its repetition. -/
structure Piece where
  atom : Atom
  rep : Rep
  deriving DecidableEq, Repr

/-- A compiled regular expression of the fragment. -/
abbrev Regexp := List Piece

/-- The parser accepts a backslash before any ASCII character that is not a
letter or digit: `c < utf8.RuneSelf && !isalnum(c)` ("escaped non-word
characters are always themselves"). -/
def escapable (c : Char) : Bool :=
  decide (c.toNat < 128) && !c.isAlphanum

/-- Parser loop of `regexp.MustCompile`; `acc` holds the pieces read so far,
last one first.  `none` stands for a panic (or a pattern outside the fragment). -/
def compileAux : Str → List Piece → Option Regexp
  | [], acc => some acc.reverse
  | c :: rest, acc =>
    if c = '\\' then
      match rest with
      | [] => none
      | e :: rest1 =>
        if escapable e then compileAux rest1 (⟨.lit e, .one⟩ :: acc) else none
    else if c = '.' then compileAux rest (⟨.any, .one⟩ :: acc)
    else if c = '*' ∨ c = '+' ∨ c = '?' then
      match acc with
      | ⟨a, .one⟩ :: acc1 =>
        compileAux rest
          (⟨a, if c = '*' then .star else if c = '+' then .plus else .opt⟩ :: acc1)
      | _ => none
    else if special c then none
    else compileAux rest (⟨.lit c, .one⟩ :: acc)

/-- Go `regexp.MustCompile(str)` on the fragment. -/
def MustCompile (str : Str) : Option Regexp := compileAux str []

/-- Whether an atom accepts a character (`.` does not match a newline). -/
def Atom.accepts : Atom → Char → Bool
  | .lit c, x => x == c
  | .any, x => x != '\n'

/-- Greedy repetition of `a` followed by the continuation `k`: the longest run
of accepted characters is tried first, then shorter ones. -/
def matchStar (a : Atom) (k : Str → Option Str) : Str → Option Str
  | [] => k []
  | x :: xs =>
    if a.accepts x then
      match matchStar a k xs with
      | some r => some r
      | none => k (x :: xs)
    else k (x :: xs)

/-- Anchored match of `re` at the start of `s`: the unread rest of `s` after the
preferred (leftmost-first) match, or `none` when `re` does not match here. -/
def matchHere : Regexp → Str → Option Str
  | [], s => some s
  | ⟨a, .one⟩ :: ps, s =>
    match s with
    | [] => none
    | x :: xs => if a.accepts x then matchHere ps xs else none
  | ⟨a, .star⟩ :: ps, s => matchStar a (matchHere ps) s
  | ⟨a, .plus⟩ :: ps, s =>
    match s with
    | [] => none
    | x :: xs => if a.accepts x then matchStar a (matchHere ps) xs else none
  | ⟨a, .opt⟩ :: ps, s =>
    match s with
    | [] => matchHere ps []
    | x :: xs =>
      if a.accepts x then
        match matchHere ps xs with
        | some r => some r
        | none => matchHere ps (x :: xs)
      else matchHere ps (x :: xs)

/-- Length of the match of `re` at the start of `s`, if there is one. -/
def matchLen (re : Regexp) (s : Str) : Option Nat :=
  (matchHere re s).map (fun rest => s.length - rest.length)

/-- Go `(*Regexp).MatchString(s)`: is there a match starting at some position. -/
def MatchString (re : Regexp) : Str → Bool
  | [] => (matchHere re []).isSome
  | x :: xs => (matchHere re (x :: xs)).isSome || MatchString re xs

/-- Loop of Go `(*Regexp).ReplaceAll`.  The first argument is `none` at a
search position not adjacent to a match, `some 0` just after a match, and
`some (k+1)` while `k+1` characters of the last match are still to be
skipped.  An empty match directly after another match gets no replacement. -/
def replaceAllAux (re : Regexp) (repl : Str) : Option Nat → Str → Str
  | some (_ + 1), [] => []
  | some (k + 1), _ :: xs => replaceAllAux re repl (some k) xs
  | st, [] =>
    match matchLen re [] with
    | some _ => if st = some 0 then [] else repl
    | none => []
  | st, x :: xs =>
    match matchLen re (x :: xs) with
    | none => x :: replaceAllAux re repl none xs
    | some 0 => (if st = some 0 then [] else repl) ++ x :: replaceAllAux re repl none xs
    | some (n + 1) => repl ++ replaceAllAux re repl (some n) xs

/-- Go `(*Regexp).ReplaceAll(src, repl)` for a replacement without `$`. -/
def ReplaceAll (re : Regexp) (src repl : Str) : Str :=
  replaceAllAux re repl none src

/-! ## Package `bufio`: a `Scanner` with the default `ScanLines` split -/

/-- Go `bufio.MaxScanTokenSize`. -/
def MaxScanTokenSize : Nat := 64 * 1024

/-- Number of bytes of the UTF-8 encoding. -/
def utf8Len (s : Str) : Nat := (s.map Char.utf8Size).sum

/-- Go `bufio.dropCR`: drop one trailing carriage return. -/
def dropCR (data : Str) : Str :=
  if data.getLast? = some '\r' then data.dropLast else data

/-- Go error values that can arise. -/
inductive Err where
  | SkipDir
  | SkipAll
  | usage
  | what
  | regexpPanic
  | notExist (name : Str)
  | readDir (name : Str)
  | tooLong
  | processing (path : Str) (e : Err)
  deriving DecidableEq, Repr

/-- Scanning loop `for scanner.Scan()` of a `bufio.Scanner` over the whole
input: the tokens returned by the successive calls of `Scan`, and the value of
`scanner.Err()` afterwards.  `cur` is the unterminated line held in the
buffer, last character first.  A line is a token once its newline has been
read, or at the end of the input when it is not empty; a buffer of `max`
bytes without a newline stops the scan with `ErrTooLong`. -/
def scanLines (max : Nat) : Str → Str → List Str × Option Err
  | [], cur => if cur = [] then ([], none) else ([dropCR cur.reverse], none)
  | c :: cs, cur =>
    if c = '\n' then
      ((dropCR cur.reverse) :: (scanLines max cs []).1, (scanLines max cs []).2)
    else if max ≤ utf8Len (c :: cur) then ([], some .tooLong)
    else scanLines max cs (c :: cur)

/-! ## The file system and the trace of effects -/

/-- A regular file: permission bits and content. -/
structure File where
  mode : Nat
  data : Str
  deriving DecidableEq, Repr

/-- The regular files, by full path name. -/
abbrev FileSys := Str → Option File

/-- What a run does, in order. -/
inductive Event where
  | logProcessing (root : Str)
  | logAssemblyFile (path : Str)
  | logPackage (pkg : Str)
  | logFound (line : Str)
  | call (root path : Str)
  | osOpen (name : Str)
  | osStat (name : Str)
  | osReadFile (name : Str)
  | osWriteFile (name : Str) (perm : Nat)
  deriving DecidableEq, Repr

/-- State of the outside world. -/
structure World where
  fs : FileSys
  trace : List Event

/-- Append an event to the trace. -/
def World.emit (w : World) (e : Event) : World :=
  { w with trace := w.trace ++ [e] }

/-- Go `filepath.Join(root, path)` for a clean root and a clean relative
path. -/
def filepathJoin (root path : Str) : Str := root ++ '/' :: path

/-- Go `os.WriteFile(name, data, perm)`: an existing file is truncated and
keeps its permissions, a missing one is created with `perm`. -/
def WriteFile (name data : Str) (perm : Nat) (w : World) : Option Err × World :=
  let mode := match w.fs name with
    | some f => f.mode
    | none => perm
  (none,
    { fs := fun p => if p = name then some ⟨mode, data⟩ else w.fs p
      trace := w.trace ++ [.osWriteFile name perm] })

/-! ## `main.go` -/

/-- Line 19, `flag.Bool("dry-run", true, ...)`: the value of the flag when the
command line does not set it. -/
def dryRunDefault : Bool := true

/-- Lines 66-71 of `processFile`: the package identifier of a relative path,
`none` when the path has fewer than two components. -/
def pkgOf (path : Str) : Option Str :=
  let components := Split path '/'
  if components.length < 2 then none
  else some (Join (components.take (components.length - 1)) ['∕'])

/-- The dry-run loop of `processFile` over the scanned lines: each line the
pattern matches is logged. -/
def reportLines (re : Regexp) (lines : List Str) (w : World) : World :=
  lines.foldl (fun w line => if MatchString re line then w.emit (.logFound line) else w) w

/-- Function `processFile(root, path)` of `main.go`. -/
def processFile (dryRun : Bool) (root path : Str) (w : World) : Option Err × World :=
  let w := w.emit (.call root path)
  match pkgOf path with
  | none => (some .what, w)
  | some pkg =>
    let w := w.emit (.logPackage pkg)
    match MustCompile (QuoteMeta pkg ++ ['·']) with
    | none => (some .regexpPanic, w)
    | some re =>
      let full := filepathJoin root path
      if dryRun then
        let w := w.emit (.osOpen full)
        match w.fs full with
        | none => (some (.notExist full), w)
        | some f =>
          let r := scanLines MaxScanTokenSize f.data []
          (r.2, reportLines re r.1 w)
      else
        let w := w.emit (.osStat full)
        match w.fs full with
        | none => (some (.notExist full), w)
        | some fi =>
          let w := w.emit (.osReadFile full)
          match w.fs full with
          | none => (some (.notExist full), w)
          | some f => WriteFile full (ReplaceAll re f.data ['·']) fi.mode w

/-- An entry of the tree served by `os.DirFS(root)`: a non-directory, a
directory whose listing cannot be read, or a directory with its listing. -/
inductive DirEntry : Type where
  | file (name : Str)
  | baddir (name : Str)
  | dir (name : Str) (entries : List DirEntry)

/-- Go `d.Name()`. -/
def DirEntry.Name : DirEntry → Str
  | .file n => n
  | .baddir n => n
  | .dir n _ => n

/-- Go `d.IsDir()`. -/
def DirEntry.IsDir : DirEntry → Bool
  | .file _ => false
  | .baddir _ => true
  | .dir _ _ => true

/-- The function literal `run` passes to `fs.WalkDir`. -/
def visit (dryRun : Bool) (root path : Str) (d : DirEntry) (err : Option Err) (w : World) :
    Option Err × World :=
  match err with
  | some e => (some e, w)
  | none =>
    if d.Name = "vendor".toList then (some .SkipDir, w)
    else if d.IsDir then (none, w)
    else if !HasSuffix path ".s".toList then (none, w)
    else
      let w := w.emit (.logAssemblyFile path)
      match processFile dryRun root path w with
      | (some e, w1) => (some (.processing path e), w1)
      | (none, w1) => (none, w1)

/-- Go `path.Join(name, d1.Name())` as `fs.WalkDir` uses it: below the root
`.` the name alone, otherwise the two joined by a slash. -/
def pathJoin (name elem : Str) : Str :=
  if name = ['.'] then elem else name ++ '/' :: elem

/-- The callback type of `fs.WalkDir`. -/
abbrev WalkDirFunc := Str → DirEntry → Option Err → World → Option Err × World

mutual
/-- Go `fs.walkDir`: call `fn` on the entry, then walk the listing of a
directory; `SkipDir` from an entry of the listing ends the listing. -/
def walkDir (fn : WalkDirFunc) (name : Str) (d : DirEntry) (w : World) : Option Err × World :=
  match d with
  | .file n =>
    fn name (.file n) none w
  | .baddir n =>
    match fn name (.baddir n) none w with
    | (some e, w1) => if e = .SkipDir then (none, w1) else (some e, w1)
    | (none, w1) =>
      match fn name (.baddir n) (some (.readDir name)) w1 with
      | (some e, w2) => if e = .SkipDir then (none, w2) else (some e, w2)
      | (none, w2) => (none, w2)
  | .dir n entries =>
    match fn name (.dir n entries) none w with
    | (some e, w1) => if e = .SkipDir then (none, w1) else (some e, w1)
    | (none, w1) => walkDirs fn name entries w1
/-- The loop of `fs.walkDir` over the listing of directory `name`. -/
def walkDirs (fn : WalkDirFunc) (name : Str) : List DirEntry → World → Option Err × World
  | [], w => (none, w)
  | d1 :: rest, w =>
    match walkDir fn (pathJoin name d1.Name) d1 w with
    | (some e, w1) => if e = .SkipDir then (none, w1) else (some e, w1)
    | (none, w1) => walkDirs fn name rest w1
end

/-- Go `fs.WalkDir(fsys, root, fn)` on an existing root. -/
def WalkDir (fsys : DirEntry) (root : Str) (fn : WalkDirFunc) (w : World) : Option Err × World :=
  match walkDir fn root fsys w with
  | (some e, w1) => if e = .SkipDir ∨ e = .SkipAll then (none, w1) else (some e, w1)
  | (none, w1) => (none, w1)

/-- Function `run` of `main.go`; `args` is `flag.Args()` and `entries` the
listing of the root directory. -/
def run (dryRun : Bool) (args : List Str) (entries : List DirEntry) (w : World) :
    Option Err × World :=
  match args with
  | [root] =>
    let w := w.emit (.logProcessing root)
    WalkDir (.dir ['.'] entries) ['.'] (visit dryRun root) w
  | _ => (some .usage, w)

/-- The paths `processFile` was called with, in order. -/
def calls (tr : List Event) : List Str :=
  tr.filterMap fun e =>
    match e with
    | .call _ path => some path
    | _ => none

/-- The paths reported in "Assembly file" log lines, in order. -/
def reported (tr : List Event) : List Str :=
  tr.filterMap fun e =>
    match e with
    | .logAssemblyFile path => some path
    | _ => none

/-- The lines reported by the dry-run loop, in order. -/
def found (tr : List Event) : List Str :=
  tr.filterMap fun e =>
    match e with
    | .logFound line => some line
    | _ => none

/-- The system calls of the rewrite path: stat, read, write. -/
def Event.isRewriteOp : Event → Bool
  | .osStat _ => true
  | .osReadFile _ => true
  | .osWriteFile _ _ => true
  | _ => false

/-! ## Specification-side notions -/

/-- The regular expression that matches exactly the text `w`. -/
def lits (w : Str) : Regexp := w.map fun c => ⟨.lit c, .one⟩

/-- Literal replacement as the specification words it: `Rewrites pat repl s t`
holds when `t` is `s` with every non-overlapping occurrence of `pat`, found
leftmost-first, replaced by `repl`, all other characters kept in order.
Either `s` has no occurrence and `t = s`, or `s = u ++ pat ++ v` where no
occurrence starts before the one after `u`, and `t` is `u ++ repl` followed by
the rewriting of `v`. -/
inductive Rewrites (pat repl : Str) : Str → Str → Prop where
  | done (s : Str) : ¬ pat <:+: s → Rewrites pat repl s s
  | step (u v t : Str) : ¬ pat <:+: u ++ pat.dropLast → Rewrites pat repl v t →
      Rewrites pat repl (u ++ pat ++ v) (u ++ repl ++ t)

/-- The lines of a text: the pieces between newlines, without the empty piece
after a final newline, each without one trailing carriage return. -/
def linesOf (content : Str) : List Str :=
  let segs := Split content '\n'
  (if segs.getLast? = some [] then segs.dropLast else segs).map dropCR

mutual
/-- No name in the entry or below it contains a slash. -/
def validName : DirEntry → Bool
  | .file n => !n.contains '/'
  | .baddir n => !n.contains '/'
  | .dir n entries => !n.contains '/' && validNames entries
/-- No name in the listing or below it contains a slash. -/
def validNames : List DirEntry → Bool
  | [] => true
  | d :: rest => validName d && validNames rest
end

mutual
/-- The paths of the non-directory entries at or below the entry `d`, whose own
path is `name`. -/
def filePathsOf (name : Str) : DirEntry → List Str
  | .file _ => [name]
  | .baddir _ => []
  | .dir _ entries => filePaths name entries
/-- The paths of all non-directory entries in the listing of directory `name`,
at any depth. -/
def filePaths (name : Str) : List DirEntry → List Str
  | [] => []
  | d :: rest => filePathsOf (pathJoin name d.Name) d ++ filePaths name rest
end

mutual
/-- No non-directory at or below the entry is named `vendor`. -/
def noVendorFile : DirEntry → Bool
  | .file n => n != "vendor".toList
  | .baddir _ => true
  | .dir _ entries => noVendorFiles entries
/-- No non-directory in the listing or below it is named `vendor`. -/
def noVendorFiles : List DirEntry → Bool
  | [] => true
  | d :: rest => noVendorFile d && noVendorFiles rest
end

/-! ## Concrete inputs -/

/-- A file system with the single file `name` of mode 0644. -/
def oneFile (name data : Str) : World :=
  ⟨fun p => if p = name then some ⟨420, data⟩ else none, []⟩

/-- Three lines, the first ended by CR LF: two references to `a.b+·` on the
first, one to `axbb·` on the second, one to `a.b+·` on the third. -/
def sampleText : Str :=
  "CALL a.b+·f(SB); CALL a.b+·g(SB)\r\nCALL axbb·h(SB)\nJMP a.b+·h(SB)\n".toList

/-- An empty file system and an empty trace. -/
def noFiles : World := ⟨fun _ => none, []⟩

/-- A text of one line, without a newline, that starts with `a·` and is 65538
bytes long. -/
def longLine : Str := "a·".toList ++ List.replicate MaxScanTokenSize 'x'

/-! ## Lemmas on `Split` and `Join` -/

theorem Split_ne_nil (s : Str) (sep : Char) : Split s sep ≠ [] := by
  induction s with
  | nil => simp [Split]
  | cons c cs ih =>
    unfold Split
    split
    · simp
    · split <;> simp

theorem Split_cons_sep (cs : Str) (sep : Char) : Split (sep :: cs) sep = [] :: Split cs sep := by
  simp [Split]

theorem Split_cons_ne (c : Char) (cs : Str) (sep : Char) (h : c ≠ sep) :
    ∃ w ws, Split cs sep = w :: ws ∧ Split (c :: cs) sep = (c :: w) :: ws := by
  cases hs : Split cs sep with
  | nil => exact absurd hs (Split_ne_nil cs sep)
  | cons w ws =>
    refine ⟨w, ws, rfl, ?_⟩
    rw [Split, if_neg h, hs]

theorem Split_append_sep (a b : Str) (sep : Char) :
    Split (a ++ sep :: b) sep = Split a sep ++ Split b sep := by
  induction a with
  | nil => simp [Split]
  | cons c cs ih =>
    by_cases h : c = sep
    · subst h
      simp [Split_cons_sep, ih]
    · obtain ⟨w, ws, hw, hc⟩ := Split_cons_ne c cs sep h
      rw [hc]
      obtain ⟨w1, ws1, hw1, hc1⟩ := Split_cons_ne c (cs ++ sep :: b) sep h
      rw [List.cons_append, hc1]
      rw [ih, hw] at hw1
      simp at hw1
      simp [hw1.1, hw1.2]

theorem Split_of_not_mem (s : Str) (sep : Char) (h : sep ∉ s) : Split s sep = [s] := by
  induction s with
  | nil => simp [Split]
  | cons c cs ih =>
    simp only [List.mem_cons, not_or] at h
    obtain ⟨w, ws, hw, hc⟩ := Split_cons_ne c cs sep (Ne.symm h.1)
    rw [ih h.2] at hw
    simp at hw
    rw [hc, ← hw.1, ← hw.2]

theorem not_mem_of_mem_Split (s : Str) (sep : Char) : ∀ w ∈ Split s sep, sep ∉ w := by
  induction s with
  | nil => simp [Split]
  | cons c cs ih =>
    by_cases h : c = sep
    · subst h
      rw [Split_cons_sep]
      intro w hw
      rcases List.mem_cons.1 hw with rfl | hw
      · simp
      · exact ih w hw
    · obtain ⟨w1, ws, hw1, hc⟩ := Split_cons_ne c cs sep h
      rw [hc]
      rw [hw1] at ih
      intro w hw
      rcases List.mem_cons.1 hw with rfl | hw
      · have := ih w1 (by simp)
        simp only [List.mem_cons, not_or]
        exact ⟨Ne.symm h, this⟩
      · exact ih w (by simp [hw])

theorem Join_cons_cons (a b : Str) (rest : List Str) (sep : Str) :
    Join (a :: b :: rest) sep = a ++ sep ++ Join (b :: rest) sep := rfl

theorem Join_Split (s : Str) (sep : Char) : Join (Split s sep) [sep] = s := by
  induction s with
  | nil => simp [Split, Join]
  | cons c cs ih =>
    by_cases h : c = sep
    · subst h
      rw [Split_cons_sep]
      cases hs : Split cs c with
      | nil => exact absurd hs (Split_ne_nil cs c)
      | cons w ws =>
        rw [Join_cons_cons, ← hs, ih]
        simp
    · obtain ⟨w, ws, hw, hc⟩ := Split_cons_ne c cs sep h
      rw [hc]
      rw [hw] at ih
      cases ws with
      | nil =>
        simp only [Join] at ih ⊢
        rw [ih]
      | cons b rest =>
        rw [Join_cons_cons] at ih ⊢
        rw [← ih]
        simp

theorem pkgOf_eq_none (path : Str) (h : (Split path '/').length < 2) : pkgOf path = none := by
  simp [pkgOf, h]

theorem pkgOf_eq_some (path : Str) (h : 2 ≤ (Split path '/').length) :
    pkgOf path = some (Join (Split path '/').dropLast ['∕']) := by
  have : ¬ (Split path '/').length < 2 := by omega
  simp [pkgOf, this, List.dropLast_eq_take]

/-! ## Lemmas on the regular-expression fragment -/

theorem escapable_of_special (c : Char) (h : special c = true) : escapable c = true := by
  simp [special] at h
  rcases h with h | h | h | h | h | h | h | h | h | h | h | h | h | h <;> subst h <;> decide

theorem not_special_marker : special '·' = false := by decide

theorem compileAux_nil (acc : List Piece) : compileAux [] acc = some acc.reverse := by
  rw [compileAux.eq_def]

theorem compileAux_lit (c : Char) (rest : Str) (acc : List Piece) (h : special c = false) :
    compileAux (c :: rest) acc = compileAux rest (⟨.lit c, .one⟩ :: acc) := by
  have h1 : c ≠ '\\' := by rintro rfl; exact absurd h (by decide)
  have h2 : c ≠ '.' := by rintro rfl; exact absurd h (by decide)
  have h3 : c ≠ '*' := by rintro rfl; exact absurd h (by decide)
  have h4 : c ≠ '+' := by rintro rfl; exact absurd h (by decide)
  have h5 : c ≠ '?' := by rintro rfl; exact absurd h (by decide)
  conv_lhs => rw [compileAux.eq_def]
  simp [h1, h2, h3, h4, h5, h]

theorem compileAux_escaped (c : Char) (rest : Str) (acc : List Piece) (h : special c = true) :
    compileAux ('\\' :: c :: rest) acc = compileAux rest (⟨.lit c, .one⟩ :: acc) := by
  conv_lhs => rw [compileAux.eq_def]
  simp [escapable_of_special c h]

theorem compileAux_QuoteMeta (w t : Str) (acc : List Piece) :
    compileAux (QuoteMeta w ++ t) acc = compileAux t ((lits w).reverse ++ acc) := by
  induction w generalizing acc with
  | nil => simp [QuoteMeta, lits]
  | cons c cs ih =>
    by_cases h : special c = true
    · simp only [QuoteMeta, h, if_true, List.cons_append]
      rw [compileAux_escaped c _ acc h, ih]
      simp [lits]
    · have h0 : special c = false := by simpa using h
      simp only [QuoteMeta, h0, Bool.false_eq_true, if_false, List.cons_append]
      rw [compileAux_lit c _ acc h0, ih]
      simp [lits]

/-- The pattern `processFile` compiles is the literal `pkg·`. -/
theorem MustCompile_quoted (pkg : Str) :
    MustCompile (QuoteMeta pkg ++ ['·']) = some (lits (pkg ++ ['·'])) := by
  rw [MustCompile, compileAux_QuoteMeta, compileAux_lit _ _ _ not_special_marker]
  simp [compileAux_nil, lits]

theorem matchHere_lits (w s : Str) :
    matchHere (lits w) s = if w <+: s then some (s.drop w.length) else none := by
  induction w generalizing s with
  | nil => simp [lits, matchHere]
  | cons c cs ih =>
    cases s with
    | nil => simp [lits, matchHere]
    | cons x xs =>
      have ih1 := ih xs
      simp only [lits] at ih1
      simp only [lits, List.map_cons, matchHere, Atom.accepts, beq_iff_eq, ih1]
      by_cases hx : x = c
      · subst hx
        simp [List.cons_prefix_cons]
      · have : ¬ (c :: cs <+: x :: xs) := by
          rw [List.cons_prefix_cons]
          exact fun h => hx h.1.symm
        simp [hx, this]

theorem matchLen_lits (w s : Str) :
    matchLen (lits w) s = if w <+: s then some w.length else none := by
  rw [matchLen, matchHere_lits]
  by_cases h : w <+: s
  · have := h.length_le
    simp only [h, if_true, Option.map_some', List.length_drop]
    congr 1
    omega
  · simp [h]

theorem MatchString_lits (w s : Str) : MatchString (lits w) s = true ↔ w <:+: s := by
  induction s with
  | nil =>
    simp only [MatchString, matchHere_lits]
    by_cases h : w <+: []
    · simp [h, List.prefix_nil.1 h]
    · have : w ≠ [] := fun e => h (by simp [e])
      simp [h, this]
  | cons x xs ih =>
    simp only [MatchString, matchHere_lits, Bool.or_eq_true, ih, List.infix_cons_iff]
    by_cases h : w <+: x :: xs <;> simp [h]

/-! ## `ReplaceAll` with a literal pattern -/

theorem matchLen_lits_nil (w : Str) (hw : w ≠ []) : matchLen (lits w) [] = none := by
  rw [matchLen_lits, if_neg]
  intro h
  exact hw (List.prefix_nil.1 h)

theorem replaceAllAux_lits_nil (w repl : Str) (hw : w ≠ []) (st : Option Nat) :
    replaceAllAux (lits w) repl st [] = [] := by
  rw [replaceAllAux.eq_def]
  rcases st with _ | _ | k <;> simp [matchLen_lits_nil w hw]

theorem replaceAllAux_lits_skip (w repl : Str) (hw : w ≠ []) (k : Nat) (s : Str) :
    replaceAllAux (lits w) repl (some k) s = replaceAllAux (lits w) repl (some 0) (s.drop k) := by
  induction k generalizing s with
  | zero => simp
  | succ k ih =>
    cases s with
    | nil => simp [replaceAllAux_lits_nil w repl hw]
    | cons x xs =>
      conv_lhs => rw [replaceAllAux.eq_def]
      simp [ih]

theorem replaceAllAux_lits_cons (w repl : Str) (hw : w ≠ []) (st : Option Nat)
    (hst : st = none ∨ st = some 0) (x : Char) (xs : Str) :
    replaceAllAux (lits w) repl st (x :: xs) =
      if w <+: x :: xs then repl ++ replaceAllAux (lits w) repl (some 0) ((x :: xs).drop w.length)
      else x :: replaceAllAux (lits w) repl none xs := by
  obtain ⟨c, cs, rfl⟩ := List.exists_cons_of_ne_nil hw
  conv_lhs => rw [replaceAllAux.eq_def]
  by_cases h : (c :: cs) <+: x :: xs
  · rcases hst with rfl | rfl <;>
      simp [matchLen_lits, h, replaceAllAux_lits_skip (c :: cs) repl hw]
  · rcases hst with rfl | rfl <;> simp [matchLen_lits, h]

theorem replaceAllAux_lits_some_zero (w repl : Str) (hw : w ≠ []) (s : Str) :
    replaceAllAux (lits w) repl (some 0) s = replaceAllAux (lits w) repl none s := by
  cases s with
  | nil => simp [replaceAllAux_lits_nil w repl hw]
  | cons x xs =>
    rw [replaceAllAux_lits_cons w repl hw (some 0) (Or.inr rfl),
      replaceAllAux_lits_cons w repl hw none (Or.inl rfl)]

theorem ReplaceAll_lits_nil (w repl : Str) (hw : w ≠ []) : ReplaceAll (lits w) [] repl = [] :=
  replaceAllAux_lits_nil w repl hw none

theorem ReplaceAll_lits_hit (w repl : Str) (hw : w ≠ []) (v : Str) :
    ReplaceAll (lits w) (w ++ v) repl = repl ++ ReplaceAll (lits w) v repl := by
  obtain ⟨c, cs, rfl⟩ := List.exists_cons_of_ne_nil hw
  have hp : (c :: cs) <+: c :: (cs ++ v) := ⟨v, by simp⟩
  rw [ReplaceAll, List.cons_append, replaceAllAux_lits_cons (c :: cs) repl hw none (Or.inl rfl),
    if_pos hp, replaceAllAux_lits_some_zero (c :: cs) repl hw]
  simp [ReplaceAll]

theorem ReplaceAll_lits_skip (w repl : Str) (hw : w ≠ []) (x : Char) (xs : Str)
    (h : ¬ w <+: x :: xs) :
    ReplaceAll (lits w) (x :: xs) repl = x :: ReplaceAll (lits w) xs repl := by
  rw [ReplaceAll, replaceAllAux_lits_cons w repl hw none (Or.inl rfl), if_neg h]
  rfl

theorem ReplaceAll_lits_no_occurrence (w repl : Str) (hw : w ≠ []) (s : Str) (h : ¬ w <:+: s) :
    ReplaceAll (lits w) s repl = s := by
  induction s with
  | nil => exact ReplaceAll_lits_nil w repl hw
  | cons x xs ih =>
    rw [List.infix_cons_iff, not_or] at h
    rw [ReplaceAll_lits_skip w repl hw x xs h.1, ih h.2]

/-- A character before a non-occurrence can be put in front of a rewriting. -/
theorem Rewrites.cons_skip (pat repl : Str) (x : Char) (xs t : Str)
    (hx : ¬ pat <+: x :: xs) (h : Rewrites pat repl xs t) :
    Rewrites pat repl (x :: xs) (x :: t) := by
  cases h with
  | done _ hn =>
    apply Rewrites.done
    rw [List.infix_cons_iff, not_or]
    exact ⟨hx, hn⟩
  | step u v t1 hu hv =>
    have := Rewrites.step (x :: u) v t1 ?_ hv
    · simpa using this
    · rw [List.cons_append, List.infix_cons_iff, not_or]
      refine ⟨fun hp => hx ?_, hu⟩
      refine hp.trans ?_
      rw [List.prefix_cons_inj, List.append_assoc, List.prefix_append_right_inj]
      exact (List.dropLast_prefix pat).trans (List.prefix_append pat v)

theorem Rewrites_ReplaceAll (pat repl : Str) (hp : pat ≠ []) (s : Str) :
    Rewrites pat repl s (ReplaceAll (lits pat) s repl) := by
  generalize hn : s.length = n
  induction n using Nat.strong_induction_on generalizing s with
  | _ n ih =>
    cases s with
    | nil =>
      rw [ReplaceAll_lits_nil pat repl hp]
      apply Rewrites.done
      intro h
      exact hp (List.infix_nil.1 h)
    | cons x xs =>
      by_cases h : pat <+: x :: xs
      · obtain ⟨v, hv⟩ := h
        rw [← hv, ReplaceAll_lits_hit pat repl hp]
        have hlen : v.length < n := by
          have := congrArg List.length hv
          have : 0 < pat.length := List.length_pos.2 hp
          simp at *
          omega
        have := @Rewrites.step pat repl [] v _ ?_ (ih _ hlen v rfl)
        · simpa using this
        · intro hi
          have h1 := hi.length_le
          have : 0 < pat.length := List.length_pos.2 hp
          simp at h1
          omega
      · rw [ReplaceAll_lits_skip pat repl hp x xs h]
        apply Rewrites.cons_skip pat repl x xs _ h
        exact ih _ (by simp at hn; omega) xs rfl

theorem ReplaceAll_lits_leftmost (pat repl : Str) (hp : pat ≠ []) (u v : Str)
    (hu : ¬ pat <:+: u ++ pat.dropLast) :
    ReplaceAll (lits pat) (u ++ pat ++ v) repl = u ++ repl ++ ReplaceAll (lits pat) v repl := by
  induction u with
  | nil => simpa using ReplaceAll_lits_hit pat repl hp v
  | cons x u ih =>
    rw [List.cons_append, List.infix_cons_iff, not_or] at hu
    have hx : ¬ pat <+: x :: (u ++ pat ++ v) := by
      intro h
      apply hu.1
      have h2 : x :: (u ++ pat.dropLast) <+: x :: (u ++ pat ++ v) := by
        rw [List.prefix_cons_inj, List.append_assoc, List.prefix_append_right_inj]
        exact (List.dropLast_prefix pat).trans (List.prefix_append pat v)
      refine List.prefix_of_prefix_length_le h h2 ?_
      have : 0 < pat.length := List.length_pos.2 hp
      simp
      omega
    rw [List.cons_append, List.cons_append, ReplaceAll_lits_skip pat repl hp _ _ hx, ih hu.2]
    simp

/-- The relation `Rewrites` determines the rewritten text. -/
theorem Rewrites_unique (pat repl : Str) (hp : pat ≠ []) (s t : Str)
    (h : Rewrites pat repl s t) : t = ReplaceAll (lits pat) s repl := by
  induction h with
  | done s hn => exact (ReplaceAll_lits_no_occurrence pat repl hp s hn).symm
  | step u v t hu _ ih => rw [ReplaceAll_lits_leftmost pat repl hp u v hu, ih]

theorem Rewrites_iff (pat repl : Str) (hp : pat ≠ []) (s t : Str) :
    Rewrites pat repl s t ↔ t = ReplaceAll (lits pat) s repl :=
  ⟨Rewrites_unique pat repl hp s t, fun h => h ▸ Rewrites_ReplaceAll pat repl hp s⟩

/-! ## `processFile` as equations -/

theorem pattern_ne_nil (pkg : Str) : pkg ++ ['·'] ≠ [] := by simp

theorem processFile_short (dryRun : Bool) (root path : Str) (w : World)
    (h : pkgOf path = none) :
    processFile dryRun root path w = (some .what, w.emit (.call root path)) := by
  simp [processFile, h]

theorem processFile_rewrite_eq (root path pkg : Str) (w : World) (f : File)
    (hpkg : pkgOf path = some pkg) (hf : w.fs (filepathJoin root path) = some f) :
    processFile false root path w =
      (none,
        { fs := fun p =>
            if p = filepathJoin root path then
              some ⟨f.mode, ReplaceAll (lits (pkg ++ ['·'])) f.data ['·']⟩
            else w.fs p
          trace := w.trace ++
            [.call root path, .logPackage pkg, .osStat (filepathJoin root path),
              .osReadFile (filepathJoin root path),
              .osWriteFile (filepathJoin root path) f.mode] }) := by
  simp [processFile, hpkg, MustCompile_quoted, World.emit, hf, WriteFile]

theorem processFile_rewrite_missing (root path pkg : Str) (w : World)
    (hpkg : pkgOf path = some pkg) (hf : w.fs (filepathJoin root path) = none) :
    processFile false root path w =
      (some (.notExist (filepathJoin root path)),
        { fs := w.fs
          trace := w.trace ++
            [.call root path, .logPackage pkg, .osStat (filepathJoin root path)] }) := by
  simp [processFile, hpkg, MustCompile_quoted, World.emit, hf]

theorem reportLines_eq (re : Regexp) (lines : List Str) (w : World) :
    reportLines re lines w =
      { fs := w.fs
        trace := w.trace ++ (lines.filter (MatchString re)).map Event.logFound } := by
  induction lines generalizing w with
  | nil => simp [reportLines]
  | cons l ls ih =>
    simp only [reportLines, List.foldl_cons] at ih ⊢
    by_cases h : MatchString re l = true
    · rw [if_pos h, ih]
      simp [h, World.emit, List.filter_cons]
    · rw [if_neg h, ih]
      simp [h, List.filter_cons]

theorem processFile_dry_eq (root path pkg : Str) (w : World) (f : File)
    (hpkg : pkgOf path = some pkg) (hf : w.fs (filepathJoin root path) = some f) :
    processFile true root path w =
      ((scanLines MaxScanTokenSize f.data []).2,
        { fs := w.fs
          trace := w.trace ++
            [.call root path, .logPackage pkg, .osOpen (filepathJoin root path)] ++
            (((scanLines MaxScanTokenSize f.data []).1.filter
              (MatchString (lits (pkg ++ ['·'])))).map Event.logFound) }) := by
  simp [processFile, hpkg, MustCompile_quoted, World.emit, hf, reportLines_eq]

theorem processFile_dry_missing (root path pkg : Str) (w : World)
    (hpkg : pkgOf path = some pkg) (hf : w.fs (filepathJoin root path) = none) :
    processFile true root path w =
      (some (.notExist (filepathJoin root path)),
        { fs := w.fs
          trace := w.trace ++
            [.call root path, .logPackage pkg, .osOpen (filepathJoin root path)] }) := by
  simp [processFile, hpkg, MustCompile_quoted, World.emit, hf]

/-! ## Prefix derivation and rewrite mode -/

/-- C2: the prefix derivation of `processFile` succeeds exactly when splitting
the path on `/` yields at least two segments; the identifier is then all
segments but the last joined with U+2215; the segments are the `/`-free pieces
whose join with `/` is the path; with fewer than two segments `processFile`
returns the error at once, with no system call and the file system untouched;
`a/b/c/file.s` gives `a∕b∕c`. -/
theorem pkgOf_spec (path : Str) :
    ((pkgOf path).isSome ↔ 2 ≤ (Split path '/').length) ∧
    (2 ≤ (Split path '/').length →
      pkgOf path = some (Join (Split path '/').dropLast ['∕'])) ∧
    (Join (Split path '/') ['/'] = path ∧ ∀ s ∈ Split path '/', '/' ∉ s) ∧
    ((Split path '/').length < 2 → ∀ (dryRun : Bool) (root : Str) (w : World),
      processFile dryRun root path w = (some .what, ⟨w.fs, w.trace ++ [.call root path]⟩)) ∧
    pkgOf "a/b/c/file.s".toList = some "a∕b∕c".toList := by
  refine ⟨?_, ?_, ⟨Join_Split path '/', not_mem_of_mem_Split path '/'⟩, ?_, by decide⟩
  · by_cases h : 2 ≤ (Split path '/').length
    · simp [pkgOf_eq_some path h, h]
    · simp [pkgOf_eq_none path (by omega), h]
  · intro h
    exact pkgOf_eq_some path h
  · intro h dryRun root w
    rw [processFile_short dryRun root path w (pkgOf_eq_none path h)]
    rfl

/-- C1: in rewrite mode, for a path with at least two segments and an existing
file, `processFile` succeeds and writes back the content in which every
non-overlapping occurrence of the literal text `pkg·`, found leftmost-first, is
replaced by `·`, all other characters kept in order (`Rewrites`); that text is
the only one the relation allows. -/
theorem processFile_rewrites_content (root path : Str) (w : World) (f : File)
    (hseg : 2 ≤ (Split path '/').length) (hf : w.fs (filepathJoin root path) = some f) :
    ∃ pkg out, pkgOf path = some pkg ∧
      pkg = Join (Split path '/').dropLast ['∕'] ∧
      (processFile false root path w).1 = none ∧
      (processFile false root path w).2.fs (filepathJoin root path) = some ⟨f.mode, out⟩ ∧
      Rewrites (pkg ++ ['·']) ['·'] f.data out ∧
      ∀ t, Rewrites (pkg ++ ['·']) ['·'] f.data t → t = out := by
  have hpkg := pkgOf_eq_some path hseg
  refine ⟨_, _, hpkg, rfl, ?_, ?_, Rewrites_ReplaceAll _ _ (pattern_ne_nil _) f.data,
    fun t ht => Rewrites_unique _ _ (pattern_ne_nil _) _ _ ht⟩
  · rw [processFile_rewrite_eq root path _ w f hpkg hf]
  · rw [processFile_rewrite_eq root path _ w f hpkg hf]
    simp

/-- Witness of C1: for `a/b/c/file.s` the line `MOVQ a∕b∕c·Symbol(SB), AX` is
rewritten to `MOVQ ·Symbol(SB), AX`. -/
theorem processFile_rewrites_content_witness :
    2 ≤ (Split "a/b/c/file.s".toList '/').length ∧
    (∃ pkg out, pkgOf "a/b/c/file.s".toList = some pkg ∧
      pkg = Join (Split "a/b/c/file.s".toList '/').dropLast ['∕'] ∧
      (processFile false "root".toList "a/b/c/file.s".toList
        (oneFile "root/a/b/c/file.s".toList "MOVQ a∕b∕c·Symbol(SB), AX".toList)).1 = none ∧
      (processFile false "root".toList "a/b/c/file.s".toList
        (oneFile "root/a/b/c/file.s".toList "MOVQ a∕b∕c·Symbol(SB), AX".toList)).2.fs
          (filepathJoin "root".toList "a/b/c/file.s".toList) =
        some ⟨(File.mk 420 "MOVQ a∕b∕c·Symbol(SB), AX".toList).mode, out⟩ ∧
      Rewrites (pkg ++ ['·']) ['·'] (File.mk 420 "MOVQ a∕b∕c·Symbol(SB), AX".toList).data out ∧
      ∀ t, Rewrites (pkg ++ ['·']) ['·'] (File.mk 420 "MOVQ a∕b∕c·Symbol(SB), AX".toList).data t →
        t = out) ∧
    (processFile false "root".toList "a/b/c/file.s".toList
        (oneFile "root/a/b/c/file.s".toList "MOVQ a∕b∕c·Symbol(SB), AX".toList)).2.fs
          "root/a/b/c/file.s".toList = some ⟨420, "MOVQ ·Symbol(SB), AX".toList⟩ :=
  ⟨by decide,
    processFile_rewrites_content "root".toList "a/b/c/file.s".toList
      (oneFile "root/a/b/c/file.s".toList "MOVQ a∕b∕c·Symbol(SB), AX".toList)
      ⟨420, "MOVQ a∕b∕c·Symbol(SB), AX".toList⟩ (by decide) (by decide),
    by decide⟩

/-- C10: in rewrite mode, when `processFile` succeeds the file existed, its
permission bits after the write are those it had before (the write is issued
with the mode returned by the stat), and every other file is unchanged. -/
theorem processFile_keeps_mode (root path : Str) (w : World)
    (h : (processFile false root path w).1 = none) :
    ∃ f out, w.fs (filepathJoin root path) = some f ∧
      (processFile false root path w).2.fs (filepathJoin root path) = some ⟨f.mode, out⟩ ∧
      (∀ p, p ≠ filepathJoin root path → (processFile false root path w).2.fs p = w.fs p) ∧
      Event.osWriteFile (filepathJoin root path) f.mode ∈
        (processFile false root path w).2.trace := by
  cases hpkg : pkgOf path with
  | none => rw [processFile_short false root path w hpkg] at h; simp at h
  | some pkg =>
    cases hf : w.fs (filepathJoin root path) with
    | none => rw [processFile_rewrite_missing root path pkg w hpkg hf] at h; simp at h
    | some f =>
      rw [processFile_rewrite_eq root path pkg w f hpkg hf]
      refine ⟨f, ReplaceAll (lits (pkg ++ ['·'])) f.data ['·'], rfl, by simp, ?_, by simp⟩
      intro p hp
      simp [hp]

/-- Witness of C10: rewriting `root/a/b/c/file.s` (mode 0644) succeeds. -/
theorem processFile_keeps_mode_witness :
    (processFile false "root".toList "a/b/c/file.s".toList
      (oneFile "root/a/b/c/file.s".toList "TEXT a∕b∕c·f(SB)".toList)).1 = none ∧
    ∃ f out, (oneFile "root/a/b/c/file.s".toList "TEXT a∕b∕c·f(SB)".toList).fs
        (filepathJoin "root".toList "a/b/c/file.s".toList) = some f ∧
      (processFile false "root".toList "a/b/c/file.s".toList
        (oneFile "root/a/b/c/file.s".toList "TEXT a∕b∕c·f(SB)".toList)).2.fs
          (filepathJoin "root".toList "a/b/c/file.s".toList) = some ⟨f.mode, out⟩ ∧
      (∀ p, p ≠ filepathJoin "root".toList "a/b/c/file.s".toList →
        (processFile false "root".toList "a/b/c/file.s".toList
          (oneFile "root/a/b/c/file.s".toList "TEXT a∕b∕c·f(SB)".toList)).2.fs p =
        (oneFile "root/a/b/c/file.s".toList "TEXT a∕b∕c·f(SB)".toList).fs p) ∧
      Event.osWriteFile (filepathJoin "root".toList "a/b/c/file.s".toList) f.mode ∈
        (processFile false "root".toList "a/b/c/file.s".toList
          (oneFile "root/a/b/c/file.s".toList "TEXT a∕b∕c·f(SB)".toList)).2.trace :=
  ⟨by decide,
    processFile_keeps_mode "root".toList "a/b/c/file.s".toList
      (oneFile "root/a/b/c/file.s".toList "TEXT a∕b∕c·f(SB)".toList) (by decide)⟩

/-! ## A second rewrite -/

/-- An occurrence in `x ++ y` lies in `x`, lies in `y`, or straddles the seam. -/
theorem infix_append_cases (pat x y : Str) (h : pat <:+: x ++ y) :
    pat <:+: x ∨ pat <:+: y ∨
      ∃ p q, p ≠ [] ∧ q ≠ [] ∧ pat = p ++ q ∧ p <:+ x ∧ q <+: y := by
  obtain ⟨a, b, hab⟩ := h
  rcases List.append_eq_append_iff.1 hab with ⟨c, hx, hb⟩ | ⟨c, hap, hy⟩
  · exact Or.inl ⟨a, c, hx.symm⟩
  · rcases List.append_eq_append_iff.1 hap with ⟨d, hx, hp⟩ | ⟨d, ha, hc⟩
    · by_cases hd : d = []
      · subst hd
        right; left
        refine ⟨[], b, ?_⟩
        rw [hy, hp]
        simp
      · by_cases hc : c = []
        · subst hc
          left
          refine ⟨a, [], ?_⟩
          simp only [List.append_nil] at hp ⊢
          rw [hp, hx]
        · right; right
          exact ⟨d, c, hd, hc, hp, ⟨a, hx.symm⟩, ⟨b, hy.symm⟩⟩
    · right; left
      exact ⟨d, b, by rw [hy, hc]⟩

theorem no_occurrence_after_rewrite (pkg : Str) (m : Char) (hm : m ∉ pkg) (s t : Str)
    (h : Rewrites (pkg ++ [m]) [m] s t) (hs : ¬ (pkg ++ pkg ++ [m]) <:+: s) :
    ¬ (pkg ++ [m]) <:+: t := by
  induction h with
  | done s hn => exact hn
  | step u v t hu _ ih =>
    have hv : ¬ (pkg ++ pkg ++ [m]) <:+: v := fun hv =>
      hs (hv.trans ⟨u ++ (pkg ++ [m]), [], by simp⟩)
    have ih := ih hv
    intro hocc
    rw [List.append_assoc] at hocc
    rcases infix_append_cases _ u ([m] ++ t) hocc with h1 | h1 | ⟨p, q, hp, hq, hpq, hpu, hqt⟩
    · exact hu (h1.trans ⟨[], (pkg ++ [m]).dropLast, by simp⟩)
    · rw [List.singleton_append, List.infix_cons_iff] at h1
      rcases h1 with h1 | h1
      · cases pkg with
        | nil =>
          apply hs
          exact ⟨u, v, by simp⟩
        | cons c cs =>
          rw [List.cons_append, List.cons_prefix_cons] at h1
          exact hm (by simp [h1.1])
      · exact ih h1
    · -- the occurrence straddles the seam: `q` starts with the marker
      obtain ⟨q0, qs, rfl⟩ := List.exists_cons_of_ne_nil hq
      rw [List.singleton_append, List.cons_prefix_cons] at hqt
      obtain ⟨rfl, _⟩ := hqt
      -- so `pkg ++ [m] = p ++ q0 :: qs` with `q0 = m`
      rcases List.append_eq_append_iff.1 hpq with ⟨c, hpp, hc⟩ | ⟨c, hpp, hc⟩
      · -- `p = pkg ++ c`, `[m] = c ++ q0 :: qs`
        cases c with
        | nil =>
          simp only [List.append_nil] at hpp
          subst hpp
          apply hs
          obtain ⟨u0, rfl⟩ := hpu
          exact ⟨u0, v, by simp⟩
        | cons c0 cs0 =>
          have := congrArg List.length hc
          simp at this
      · -- `pkg = p ++ c`, `q0 :: qs = c ++ [m]`
        cases c with
        | nil =>
          simp only [List.append_nil] at hpp
          subst hpp
          apply hs
          obtain ⟨u0, rfl⟩ := hpu
          exact ⟨u0, v, by simp⟩
        | cons c0 cs0 =>
          rw [List.cons_append, List.cons.injEq] at hc
          apply hm
          rw [hpp, hc.1]
          simp

/-- Counterexample to C3: for `a/f.s` (identifier `a`) the content
`TEXT aa·f(SB)` becomes `TEXT a·f(SB)`, which still contains `a·`, and a second
rewrite changes it again, to `TEXT ·f(SB)`. -/
theorem rewrite_twice_differs :
    (processFile false "r".toList "a/f.s".toList
      (oneFile "r/a/f.s".toList "TEXT aa·f(SB)".toList)).2.fs "r/a/f.s".toList =
      some ⟨420, "TEXT a·f(SB)".toList⟩ ∧
    "a·".toList <:+: "TEXT a·f(SB)".toList ∧
    (processFile false "r".toList "a/f.s".toList
      (processFile false "r".toList "a/f.s".toList
        (oneFile "r/a/f.s".toList "TEXT aa·f(SB)".toList)).2).2.fs "r/a/f.s".toList =
      some ⟨420, "TEXT ·f(SB)".toList⟩ := by
  refine ⟨by decide, ?_, by decide⟩
  exact ⟨"TEXT ".toList, "f(SB)".toList, by decide⟩

/-- When the identifier itself contains the marker, a rewrite can leave an
occurrence although the content had none of `pkg` followed by `pkg·`: for the
directory `a·a` the content `aa·a·a·` becomes `a·a·`. -/
theorem marker_in_identifier :
    pkgOf "a·a/f.s".toList = some "a·a".toList ∧
    ¬ ("a·a".toList ++ "a·a".toList ++ ['·']) <:+: "aa·a·a·".toList ∧
    (processFile false "r".toList "a·a/f.s".toList
      (oneFile "r/a·a/f.s".toList "aa·a·a·".toList)).2.fs "r/a·a/f.s".toList =
      some ⟨420, "a·a·".toList⟩ := by
  decide

/-- C3 (amended): when the identifier does not contain the marker `·` and the
content has no occurrence of `pkg` followed by `pkg·`, the content written by a
rewrite has no occurrence of `pkg·` left, and a second rewrite leaves the file
system as the first one left it. -/
theorem processFile_rewrite_twice (root path pkg : Str) (w : World) (f : File)
    (hpkg : pkgOf path = some pkg) (hm : '·' ∉ pkg)
    (hf : w.fs (filepathJoin root path) = some f)
    (hc : ¬ (pkg ++ pkg ++ ['·']) <:+: f.data) :
    (∃ f1, (processFile false root path w).2.fs (filepathJoin root path) = some f1 ∧
      ¬ (pkg ++ ['·']) <:+: f1.data) ∧
    (processFile false root path (processFile false root path w).2).2.fs =
      (processFile false root path w).2.fs := by
  have h1 := processFile_rewrite_eq root path pkg w f hpkg hf
  have hno : ¬ (pkg ++ ['·']) <:+: ReplaceAll (lits (pkg ++ ['·'])) f.data ['·'] :=
    no_occurrence_after_rewrite pkg '·' hm f.data _
      (Rewrites_ReplaceAll _ _ (pattern_ne_nil pkg) f.data) hc
  have hf1 : (processFile false root path w).2.fs (filepathJoin root path) =
      some ⟨f.mode, ReplaceAll (lits (pkg ++ ['·'])) f.data ['·']⟩ := by
    rw [h1]; simp
  refine ⟨⟨_, hf1, hno⟩, ?_⟩
  rw [processFile_rewrite_eq root path pkg _ _ hpkg hf1]
  funext p
  by_cases hp : p = filepathJoin root path
  · subst hp
    simp only [if_true]
    rw [hf1, ReplaceAll_lits_no_occurrence _ _ (pattern_ne_nil pkg) _ hno]
  · simp [hp]

/-- Witness of C3 (amended): `a/f.s` with two ordinary references. -/
theorem processFile_rewrite_twice_witness :
    pkgOf "a/f.s".toList = some "a".toList ∧ '·' ∉ "a".toList ∧
    ¬ ("a".toList ++ "a".toList ++ ['·']) <:+: "CALL a·f(SB); CALL a·g(SB)".toList ∧
    ((∃ f1, (processFile false "r".toList "a/f.s".toList
        (oneFile "r/a/f.s".toList "CALL a·f(SB); CALL a·g(SB)".toList)).2.fs
          (filepathJoin "r".toList "a/f.s".toList) = some f1 ∧
      ¬ ("a".toList ++ ['·']) <:+: f1.data) ∧
    (processFile false "r".toList "a/f.s".toList
      (processFile false "r".toList "a/f.s".toList
        (oneFile "r/a/f.s".toList "CALL a·f(SB); CALL a·g(SB)".toList)).2).2.fs =
      (processFile false "r".toList "a/f.s".toList
        (oneFile "r/a/f.s".toList "CALL a·f(SB); CALL a·g(SB)".toList)).2.fs) :=
  ⟨by decide, by decide, by decide,
    processFile_rewrite_twice "r".toList "a/f.s".toList "a".toList
      (oneFile "r/a/f.s".toList "CALL a·f(SB); CALL a·g(SB)".toList)
      ⟨420, "CALL a·f(SB); CALL a·g(SB)".toList⟩ (by decide) (by decide) (by decide)
      (by decide)⟩

/-! ## The scanner -/

theorem utf8Len_append (a b : Str) : utf8Len (a ++ b) = utf8Len a + utf8Len b := by
  simp [utf8Len]

theorem utf8Len_reverse (a : Str) : utf8Len a.reverse = utf8Len a := by
  rw [utf8Len, utf8Len, List.map_reverse, List.sum_reverse]

theorem utf8Len_cons (c : Char) (a : Str) : utf8Len (c :: a) = c.utf8Size + utf8Len a := by
  simp [utf8Len]

theorem Split_append_of_not_mem (a s : Str) (sep : Char) (h : sep ∉ a) :
    ∃ hd tl, Split s sep = hd :: tl ∧ Split (a ++ s) sep = (a ++ hd) :: tl := by
  induction a with
  | nil =>
    cases hs : Split s sep with
    | nil => exact absurd hs (Split_ne_nil s sep)
    | cons hd tl => exact ⟨hd, tl, rfl, by simpa using hs⟩
  | cons c cs ih =>
    simp only [List.mem_cons, not_or] at h
    obtain ⟨hd, tl, hs, hcs⟩ := ih h.2
    obtain ⟨w, ws, hw, hc⟩ := Split_cons_ne c (cs ++ s) sep (Ne.symm h.1)
    rw [hcs] at hw
    simp only [List.cons.injEq] at hw
    refine ⟨hd, tl, hs, ?_⟩
    rw [List.cons_append, hc, ← hw.1, ← hw.2]
    simp

/-- With no line reaching the token limit, the scanner returns the lines of the
text, in order, and no error. -/
theorem scanLines_eq_linesOf (max : Nat) (s cur : Str) (hcur : '\n' ∉ cur)
    (hlen : ∀ l ∈ Split (cur.reverse ++ s) '\n', utf8Len l < max) :
    scanLines max s cur = (linesOf (cur.reverse ++ s), none) := by
  induction s generalizing cur with
  | nil =>
    have hsplit : Split cur.reverse '\n' = [cur.reverse] :=
      Split_of_not_mem _ _ (by simpa using hcur)
    by_cases hc : cur = []
    · subst hc
      simp [scanLines, linesOf, Split]
    · simp [scanLines, linesOf, hsplit, hc]
  | cons c cs ih =>
    by_cases hnl : c = '\n'
    · subst hnl
      have hsplit : Split (cur.reverse ++ '\n' :: cs) '\n' = cur.reverse :: Split cs '\n' := by
        rw [Split_append_sep, Split_of_not_mem _ _ (by simpa using hcur)]
        rfl
      have hrest : ∀ l ∈ Split ([] ++ cs) '\n', utf8Len l < max := by
        intro l hl
        apply hlen
        rw [hsplit]
        exact List.mem_cons_of_mem _ hl
      have ih0 := ih [] (by simp) hrest
      simp only [List.reverse_nil, List.nil_append] at ih0
      obtain ⟨w, ws, hw⟩ := List.exists_cons_of_ne_nil (Split_ne_nil cs '\n')
      simp only [scanLines, if_true, ih0]
      simp only [linesOf, hsplit, hw, List.getLast?_cons_cons, List.dropLast_cons₂]
      split <;> simp
    · have hnot : '\n' ∉ cur.reverse ++ [c] := by
        simp only [List.mem_append, List.mem_reverse, List.mem_singleton, not_or]
        exact ⟨hcur, Ne.symm hnl⟩
      obtain ⟨hd, tl, _, hsp⟩ := Split_append_of_not_mem (cur.reverse ++ [c]) cs '\n' hnot
      have heq : cur.reverse ++ c :: cs = (cur.reverse ++ [c]) ++ cs := by simp
      have hfirst := hlen ((cur.reverse ++ [c]) ++ hd) (by rw [heq, hsp]; simp)
      have hsmall : ¬ max ≤ utf8Len (c :: cur) := by
        rw [utf8Len_append, utf8Len_append, utf8Len_reverse] at hfirst
        rw [utf8Len_cons]
        simp only [utf8Len, List.map_cons, List.map_nil, List.sum_cons, List.sum_nil] at hfirst ⊢
        omega
      have ih1 := ih (c :: cur) (by simp [hcur, Ne.symm hnl]) (by simpa using hlen)
      simp only [scanLines, hnl, if_false, hsmall]
      rw [ih1]
      simp

/-- A line that fills the buffer stops the scan with `ErrTooLong`, and no
token is returned for it. -/
theorem scanLines_tooLong (max : Nat) (s cur : Str) (hs : '\n' ∉ s)
    (hcur : utf8Len cur < max) (hlen : max ≤ utf8Len cur + utf8Len s) :
    scanLines max s cur = ([], some .tooLong) := by
  induction s generalizing cur with
  | nil =>
    simp [utf8Len] at hlen
    simp [utf8Len] at hcur
    omega
  | cons c cs ih =>
    simp only [List.mem_cons, not_or] at hs
    have hnl : c ≠ '\n' := Ne.symm hs.1
    by_cases hbig : max ≤ utf8Len (c :: cur)
    · simp [scanLines, hnl, hbig]
    · simp only [scanLines, hnl, if_false, hbig]
      apply ih (c :: cur) hs.2 (by omega)
      rw [utf8Len_cons] at hlen ⊢
      omega

/-! ## Dry-run mode -/

theorem filter_MatchString_lits (pat : Str) (ls : List Str) :
    ls.filter (MatchString (lits pat)) = ls.filter (fun l => decide (pat <:+: l)) := by
  apply List.filter_congr
  intro l _
  by_cases h : pat <:+: l
  · simp [h, (MatchString_lits pat l).2 h]
  · have : MatchString (lits pat) l = false := by
      cases hm : MatchString (lits pat) l with
      | false => rfl
      | true => exact absurd ((MatchString_lits pat l).1 hm) h
    simp [h, this]

theorem newline_not_mem_padded (n : Nat) : '\n' ∉ "a·".toList ++ List.replicate n 'x' := by
  simp only [List.mem_append, List.mem_replicate, not_or]
  exact ⟨by decide, by simp⟩

theorem utf8Len_replicate_x (n : Nat) : utf8Len (List.replicate n 'x') = n := by
  induction n with
  | zero => rfl
  | succ n ih =>
    rw [List.replicate_succ, utf8Len_cons, ih]
    have : Char.utf8Size 'x' = 1 := by decide
    omega

theorem scanLines_padded (max n : Nat) (hmax : 0 < max) (hn : max ≤ n) :
    scanLines max ("a·".toList ++ List.replicate n 'x') [] = ([], some .tooLong) := by
  apply scanLines_tooLong _ _ _ (newline_not_mem_padded n)
  · simpa [utf8Len] using hmax
  · rw [utf8Len_append, utf8Len_replicate_x]
    omega

theorem linesOf_padded (n : Nat) :
    linesOf ("a·".toList ++ List.replicate n 'x') = ["a·".toList ++ List.replicate n 'x'] := by
  have hne : "a·".toList ++ List.replicate n 'x' ≠ [] := by
    intro h
    have := congrArg List.length h
    simp at this
  have hlast : ("a·".toList ++ List.replicate n 'x').getLast? ≠ some '\r' := by
    cases n with
    | zero => decide
    | succ k =>
      rw [List.replicate_succ', ← List.append_assoc, List.getLast?_append]
      simp
  rw [linesOf, Split_of_not_mem _ _ (newline_not_mem_padded n)]
  simp only [List.getLast?_singleton, Option.some.injEq, hne, if_false, List.map_cons,
    List.map_nil, dropCR, hlast]

/-- Counterexample to C4: the file `a/f.s` holds the single line `longLine`,
which contains `a·`; the dry run reports no line and returns `ErrTooLong`. -/
theorem dry_run_misses_long_line :
    linesOf longLine = [longLine] ∧ "a·".toList <:+: longLine ∧
    (processFile true "r".toList "a/f.s".toList (oneFile "r/a/f.s".toList longLine)).1 =
      some .tooLong ∧
    found (processFile true "r".toList "a/f.s".toList
      (oneFile "r/a/f.s".toList longLine)).2.trace = [] := by
  have hscan : scanLines MaxScanTokenSize longLine [] = ([], some .tooLong) :=
    scanLines_padded MaxScanTokenSize MaxScanTokenSize (by decide) (Nat.le_refl _)
  have hf : (oneFile "r/a/f.s".toList longLine).fs
      (filepathJoin "r".toList "a/f.s".toList) = some ⟨420, longLine⟩ := by
    have : filepathJoin "r".toList "a/f.s".toList = "r/a/f.s".toList := by decide
    rw [this, oneFile]
    simp only [if_true]
  have hpkg : pkgOf "a/f.s".toList = some "a".toList := by decide
  refine ⟨linesOf_padded MaxScanTokenSize, ⟨[], List.replicate MaxScanTokenSize 'x', ?_⟩, ?_, ?_⟩
  · rw [longLine, List.nil_append]
  · rw [processFile_dry_eq _ _ _ _ _ hpkg hf, hscan]
  · rw [processFile_dry_eq _ _ _ _ _ hpkg hf, hscan]
    simp [found, oneFile]

/-- C4 (amended): in dry-run mode, for a file in which every line is shorter than
the scanner's token limit of 65536 bytes, `processFile` succeeds and, after
logging the identifier and opening the file, reports exactly the lines that
contain `pkg·` as a literal substring, once each and in file order, whatever
characters `pkg` is made of; the file system is unchanged. -/
theorem processFile_dry_reports (root path pkg : Str) (w : World) (f : File)
    (hpkg : pkgOf path = some pkg) (hf : w.fs (filepathJoin root path) = some f)
    (hlen : ∀ l ∈ Split f.data '\n', utf8Len l < MaxScanTokenSize) :
    processFile true root path w =
      (none,
        { fs := w.fs
          trace := w.trace ++
            [.call root path, .logPackage pkg, .osOpen (filepathJoin root path)] ++
            ((linesOf f.data).filter (fun l => decide ((pkg ++ ['·']) <:+: l))).map
              Event.logFound }) := by
  have hscan := scanLines_eq_linesOf MaxScanTokenSize f.data [] (by simp) (by simpa using hlen)
  simp only [List.reverse_nil, List.nil_append] at hscan
  rw [processFile_dry_eq root path pkg w f hpkg hf, hscan, filter_MatchString_lits]

/-- Witness of C4 (amended): the identifier `a.b+` of `a.b+/f.s` occurs on two
lines of `sampleText`, twice on the first; both lines are reported, once each,
and the line with `axbb·` is not. -/
theorem processFile_dry_reports_witness :
    pkgOf "a.b+/f.s".toList = some "a.b+".toList ∧
    (∀ l ∈ Split sampleText '\n', utf8Len l < MaxScanTokenSize) ∧
    processFile true "r".toList "a.b+/f.s".toList (oneFile "r/a.b+/f.s".toList sampleText) =
      (none,
        { fs := (oneFile "r/a.b+/f.s".toList sampleText).fs
          trace := (oneFile "r/a.b+/f.s".toList sampleText).trace ++
            [.call "r".toList "a.b+/f.s".toList, .logPackage "a.b+".toList,
              .osOpen (filepathJoin "r".toList "a.b+/f.s".toList)] ++
            ((linesOf (File.mk 420 sampleText).data).filter
              (fun l => decide (("a.b+".toList ++ ['·']) <:+: l))).map Event.logFound }) ∧
    found (processFile true "r".toList "a.b+/f.s".toList
        (oneFile "r/a.b+/f.s".toList sampleText)).2.trace =
      ["CALL a.b+·f(SB); CALL a.b+·g(SB)".toList, "JMP a.b+·h(SB)".toList] :=
  ⟨by decide, by decide,
    processFile_dry_reports "r".toList "a.b+/f.s".toList "a.b+".toList
      (oneFile "r/a.b+/f.s".toList sampleText) ⟨420, sampleText⟩
      (by decide) (by decide) (by decide),
    by decide⟩

/-! ## The walk -/

theorem guard_snd (c : Prop) [Decidable c] (e : Err) (w : World) :
    (if c then ((none : Option Err), w) else (some e, w)).2 = w := by
  split <;> rfl

mutual
/-- An invariant `Inv` of the world that every call of `fn` preserves is
preserved by the walk; `Q` is what is known of each visited entry. -/
theorem walkDir_invariant (fn : WalkDirFunc) (Q : Str → DirEntry → Prop) (Inv : World → Prop)
    (hfn : ∀ name d err w, Q name d → Inv w → Inv (fn name d err w).2)
    (hsub : ∀ name n entries w, Q name (.dir n entries) →
      (fn name (.dir n entries) none w).1 = none →
      ∀ d ∈ entries, Q (pathJoin name d.Name) d) :
    ∀ (d : DirEntry) (name : Str) (w : World), Q name d → Inv w →
      Inv (walkDir fn name d w).2
  | .file n, name, w, hq, hi => by
    rw [walkDir]
    exact hfn name _ none w hq hi
  | .baddir n, name, w, hq, hi => by
    rw [walkDir]
    have h1 := hfn name (.baddir n) none w hq hi
    split
    · rename_i e w1 heq
      rw [heq] at h1
      rw [guard_snd]
      exact h1
    · rename_i w1 heq
      rw [heq] at h1
      have h2 := hfn name (.baddir n) (some (.readDir name)) w1 hq h1
      split
      · rename_i e2 w2 heq2
        rw [heq2] at h2
        rw [guard_snd]
        exact h2
      · rename_i w2 heq2
        rw [heq2] at h2
        exact h2
  | .dir n entries, name, w, hq, hi => by
    rw [walkDir]
    have h1 := hfn name (.dir n entries) none w hq hi
    split
    · rename_i e w1 heq
      rw [heq] at h1
      rw [guard_snd]
      exact h1
    · rename_i w1 heq
      rw [heq] at h1
      exact walkDirs_invariant fn Q Inv hfn hsub entries name w1
        (hsub name n entries w hq (by rw [heq])) h1
/-- The invariant along the listing of a directory. -/
theorem walkDirs_invariant (fn : WalkDirFunc) (Q : Str → DirEntry → Prop) (Inv : World → Prop)
    (hfn : ∀ name d err w, Q name d → Inv w → Inv (fn name d err w).2)
    (hsub : ∀ name n entries w, Q name (.dir n entries) →
      (fn name (.dir n entries) none w).1 = none →
      ∀ d ∈ entries, Q (pathJoin name d.Name) d) :
    ∀ (entries : List DirEntry) (name : Str) (w : World),
      (∀ d ∈ entries, Q (pathJoin name d.Name) d) → Inv w →
      Inv (walkDirs fn name entries w).2
  | [], name, w, _, hi => by
    rw [walkDirs]
    exact hi
  | d1 :: rest, name, w, hq, hi => by
    rw [walkDirs]
    have h1 := walkDir_invariant fn Q Inv hfn hsub d1 (pathJoin name d1.Name) w
      (hq d1 (by simp)) hi
    split
    · rename_i e w1 heq
      rw [heq] at h1
      rw [guard_snd]
      exact h1
    · rename_i w1 heq
      rw [heq] at h1
      exact walkDirs_invariant fn Q Inv hfn hsub rest name w1
        (fun d hd => hq d (List.mem_cons_of_mem _ hd)) h1
end

theorem WalkDir_world (fsys : DirEntry) (root : Str) (fn : WalkDirFunc) (w : World) :
    (WalkDir fsys root fn w).2 = (walkDir fn root fsys w).2 := by
  rw [WalkDir]
  split
  · rename_i e w1 heq
    rw [guard_snd, heq]
  · rename_i w1 heq
    rw [heq]

theorem calls_append (a b : List Event) : calls (a ++ b) = calls a ++ calls b := by
  simp [calls]

theorem reported_append (a b : List Event) : reported (a ++ b) = reported a ++ reported b := by
  simp [reported]

theorem calls_map_logFound (ls : List Str) : calls (ls.map Event.logFound) = [] := by
  induction ls with
  | nil => rfl
  | cons l ls ih => simp [calls]

theorem reported_map_logFound (ls : List Str) : reported (ls.map Event.logFound) = [] := by
  induction ls with
  | nil => rfl
  | cons l ls ih => simp [reported]

/-- What one call of `processFile` adds to the trace: itself as the only call,
no "Assembly file" line; in dry-run mode the file system is unchanged and no
stat, read or write is issued. -/
theorem processFile_trace (dryRun : Bool) (root path : Str) (w : World) :
    ∃ evs, (processFile dryRun root path w).2.trace = w.trace ++ evs ∧
      calls evs = [path] ∧ reported evs = [] ∧
      (dryRun = true → (processFile dryRun root path w).2.fs = w.fs ∧
        ∀ e ∈ evs, e.isRewriteOp = false) := by
  cases hpkg : pkgOf path with
  | none =>
    rw [processFile_short dryRun root path w hpkg]
    exact ⟨[.call root path], rfl, rfl, rfl, fun _ => ⟨rfl, by simp [Event.isRewriteOp]⟩⟩
  | some pkg =>
    cases hf : w.fs (filepathJoin root path) with
    | none =>
      cases dryRun with
      | true =>
        rw [processFile_dry_missing root path pkg w hpkg hf]
        exact ⟨_, rfl, rfl, rfl, fun _ => ⟨rfl, by simp [Event.isRewriteOp]⟩⟩
      | false =>
        rw [processFile_rewrite_missing root path pkg w hpkg hf]
        exact ⟨_, rfl, rfl, rfl, fun h => by simp at h⟩
    | some f =>
      cases dryRun with
      | true =>
        rw [processFile_dry_eq root path pkg w f hpkg hf]
        refine ⟨_, List.append_assoc _ _ _, ?_, ?_, fun _ => ⟨rfl, ?_⟩⟩
        · rw [calls_append, calls_map_logFound]
          rfl
        · rw [reported_append, reported_map_logFound]
          rfl
        · intro e he
          rcases List.mem_append.1 he with he | he
          · simp only [List.mem_cons, List.mem_singleton, List.not_mem_nil, or_false] at he
            rcases he with rfl | rfl | rfl <;> rfl
          · obtain ⟨l, _, rfl⟩ := List.mem_map.1 he
            rfl
      | false =>
        rw [processFile_rewrite_eq root path pkg w f hpkg hf]
        exact ⟨_, rfl, rfl, rfl, fun h => by simp at h⟩

/-- The callback either leaves the world alone or, for a non-directory not named
`vendor` whose path ends in `.s`, logs the path and runs `processFile`. -/
theorem visit_cases (dryRun : Bool) (root path : Str) (d : DirEntry) (err : Option Err)
    (w : World) :
    (visit dryRun root path d err w).2 = w ∨
    (err = none ∧ d.Name ≠ "vendor".toList ∧ d.IsDir = false ∧
      HasSuffix path ".s".toList = true ∧
      (visit dryRun root path d err w).2 =
        (processFile dryRun root path (w.emit (.logAssemblyFile path))).2) := by
  cases err with
  | some e => left; rfl
  | none =>
    by_cases hv : d.Name = "vendor".toList
    · left
      simp only [visit]
      rw [if_pos hv]
    · by_cases hd : d.IsDir = true
      · left
        simp only [visit]
        rw [if_neg hv, if_pos hd]
      · by_cases hs : HasSuffix path ".s".toList = true
        · right
          refine ⟨rfl, hv, by simpa using hd, hs, ?_⟩
          simp only [visit, hv, hd, hs, if_false, Bool.not_true, Bool.false_eq_true]
          split <;> simp_all
        · left
          simp only [visit]
          rw [if_neg hv, if_neg hd, if_pos (by simpa using hs)]

theorem visit_none_name (dryRun : Bool) (root path : Str) (d : DirEntry) (w : World)
    (h : (visit dryRun root path d none w).1 = none) : d.Name ≠ "vendor".toList := by
  intro hv
  simp only [visit] at h
  rw [if_pos hv] at h
  simp at h

/-- What one call of the callback adds to the trace. -/
theorem visit_trace (dryRun : Bool) (root path : Str) (d : DirEntry) (err : Option Err)
    (w : World) :
    (visit dryRun root path d err w).2 = w ∨
    (d.Name ≠ "vendor".toList ∧ d.IsDir = false ∧ HasSuffix path ".s".toList = true ∧
      calls (visit dryRun root path d err w).2.trace = calls w.trace ++ [path] ∧
      reported (visit dryRun root path d err w).2.trace = reported w.trace ++ [path]) := by
  rcases visit_cases dryRun root path d err w with h | ⟨_, hv, hd, hs, h⟩
  · exact Or.inl h
  · right
    obtain ⟨evs, htr, hc, hr, _⟩ :=
      processFile_trace dryRun root path (w.emit (.logAssemblyFile path))
    refine ⟨hv, hd, hs, ?_, ?_⟩
    · rw [h, htr, calls_append, hc]
      simp [World.emit, calls]
    · rw [h, htr, reported_append, hr]
      simp [World.emit, reported]

theorem HasSuffix_iff (s suffix : Str) : HasSuffix s suffix = true ↔ suffix <:+ s := by
  rw [HasSuffix, List.suffix_iff_eq_drop]
  constructor
  · intro h
    simp only [Bool.and_eq_true, decide_eq_true_eq, beq_iff_eq] at h
    exact h.2.symm
  · intro h
    have hl : suffix.length ≤ s.length := by
      have := congrArg List.length h
      simp at this
      omega
    simp only [Bool.and_eq_true, decide_eq_true_eq, beq_iff_eq]
    exact ⟨hl, h.symm⟩

theorem Split_pathJoin (name n : Str) (hn : '/' ∉ n) :
    Split (pathJoin name n) '/' = if name = ['.'] then [n] else Split name '/' ++ [n] := by
  by_cases h : name = ['.']
  · simp [pathJoin, h, Split_of_not_mem n '/' hn]
  · simp [pathJoin, h, Split_append_sep, Split_of_not_mem n '/' hn]

theorem validName_of_mem (entries : List DirEntry) (h : validNames entries = true) :
    ∀ d ∈ entries, validName d = true := by
  induction entries with
  | nil => simp
  | cons d rest ih =>
    rw [validNames, Bool.and_eq_true] at h
    intro d1 hd1
    rcases List.mem_cons.1 hd1 with rfl | hd1
    · exact h.1
    · exact ih h.2 d1 hd1

theorem slash_not_mem_Name (d : DirEntry) (h : validName d = true) : '/' ∉ d.Name := by
  cases d with
  | file n => simpa [validName, DirEntry.Name] using h
  | baddir n => simpa [validName, DirEntry.Name] using h
  | dir n entries =>
    rw [validName, Bool.and_eq_true] at h
    simpa [DirEntry.Name] using h.1

theorem validNames_of_dir (n : Str) (entries : List DirEntry)
    (h : validName (.dir n entries) = true) : validNames entries = true := by
  rw [validName, Bool.and_eq_true] at h
  exact h.2

theorem filePathsOf_subset (name : Str) (entries : List DirEntry) :
    ∀ d ∈ entries, ∀ p ∈ filePathsOf (pathJoin name d.Name) d, p ∈ filePaths name entries := by
  induction entries with
  | nil => simp
  | cons d rest ih =>
    intro d1 hd1 p hp
    rw [filePaths, List.mem_append]
    rcases List.mem_cons.1 hd1 with rfl | hd1
    · exact Or.inl hp
    · exact Or.inr (ih d1 hd1 p hp)

/-- The world after `run`: that of the walk from the root, or the initial one
on a usage error. -/
theorem run_world (dryRun : Bool) (args : List Str) (entries : List DirEntry) (w : World) :
    (run dryRun args entries w).2 = w ∨
    ∃ root, args = [root] ∧ (run dryRun args entries w).2 =
      (walkDir (visit dryRun root) ['.'] (.dir ['.'] entries)
        (w.emit (.logProcessing root))).2 := by
  rcases args with _ | ⟨root, _ | ⟨a2, rest⟩⟩
  · left; rfl
  · right
    exact ⟨root, rfl, by rw [run, WalkDir_world]⟩
  · left; rfl

/-- C7: when no name in the tree contains a slash, every path passed to
`processFile` and every path reported in an "Assembly file" line has no
component equal to `vendor`: neither a directory named `vendor`, at any depth,
nor anything inside one is processed or reported. -/
theorem run_skips_vendor (dryRun : Bool) (args : List Str) (entries : List DirEntry)
    (fs : FileSys) (hvalid : validNames entries = true) :
    ∀ p, p ∈ calls (run dryRun args entries ⟨fs, []⟩).2.trace ∨
        p ∈ reported (run dryRun args entries ⟨fs, []⟩).2.trace →
      "vendor".toList ∉ Split p '/' := by
  rcases run_world dryRun args entries ⟨fs, []⟩ with h | ⟨root, _, h⟩
  · rw [h]
    intro p hp
    simp [calls, reported] at hp
  · rw [h]
    refine walkDir_invariant (visit dryRun root)
      (fun name d => validName d = true ∧
        (d.Name ≠ "vendor".toList → "vendor".toList ∉ Split name '/'))
      (fun w => ∀ p, p ∈ calls w.trace ∨ p ∈ reported w.trace → "vendor".toList ∉ Split p '/')
      ?_ ?_ (.dir ['.'] entries) ['.'] _ ⟨?_, fun _ => by decide⟩ ?_
    · intro name d err w hq hi
      rcases visit_trace dryRun root name d err w with hw | ⟨hv, _, _, hc, hr⟩
      · rw [hw]; exact hi
      · intro p hp
        rw [hc, hr, List.mem_append, List.mem_append] at hp
        simp only [List.mem_singleton] at hp
        rcases hp with (hp | rfl) | (hp | rfl)
        · exact hi p (Or.inl hp)
        · exact hq.2 hv
        · exact hi p (Or.inr hp)
        · exact hq.2 hv
    · intro name n sub w hq hnone d hd
      have hn : n ≠ "vendor".toList := visit_none_name dryRun root name _ w hnone
      have hname := hq.2 hn
      have hvd := validName_of_mem sub (validNames_of_dir n sub hq.1) d hd
      refine ⟨hvd, fun hdn => ?_⟩
      rw [Split_pathJoin name d.Name (slash_not_mem_Name d hvd)]
      split
      · simpa using Ne.symm hdn
      · simp only [List.mem_append, List.mem_singleton, not_or]
        exact ⟨hname, Ne.symm hdn⟩
    · rw [validName, hvalid]
      rfl
    · intro p hp
      simp [calls, reported, World.emit] at hp

/-- Witness of C7: a tree with `vendor` directories at two depths, each holding
assembly files; the run succeeds and only `b/y.s` is processed. -/
theorem run_skips_vendor_witness :
    validNames [.dir "b".toList [.dir "vendor".toList [.file "v.s".toList], .file "y.s".toList],
      .dir "vendor".toList [.dir "c".toList [.file "z.s".toList]]] = true ∧
    (∀ p, p ∈ calls (run true ["r".toList]
          [.dir "b".toList [.dir "vendor".toList [.file "v.s".toList], .file "y.s".toList],
            .dir "vendor".toList [.dir "c".toList [.file "z.s".toList]]]
          ⟨(oneFile "r/b/y.s".toList "RET".toList).fs, []⟩).2.trace ∨
        p ∈ reported (run true ["r".toList]
          [.dir "b".toList [.dir "vendor".toList [.file "v.s".toList], .file "y.s".toList],
            .dir "vendor".toList [.dir "c".toList [.file "z.s".toList]]]
          ⟨(oneFile "r/b/y.s".toList "RET".toList).fs, []⟩).2.trace →
      "vendor".toList ∉ Split p '/') ∧
    (run true ["r".toList]
      [.dir "b".toList [.dir "vendor".toList [.file "v.s".toList], .file "y.s".toList],
        .dir "vendor".toList [.dir "c".toList [.file "z.s".toList]]]
      ⟨(oneFile "r/b/y.s".toList "RET".toList).fs, []⟩).1 = none ∧
    calls (run true ["r".toList]
      [.dir "b".toList [.dir "vendor".toList [.file "v.s".toList], .file "y.s".toList],
        .dir "vendor".toList [.dir "c".toList [.file "z.s".toList]]]
      ⟨(oneFile "r/b/y.s".toList "RET".toList).fs, []⟩).2.trace = ["b/y.s".toList] :=
  ⟨by decide,
    run_skips_vendor true ["r".toList]
      [.dir "b".toList [.dir "vendor".toList [.file "v.s".toList], .file "y.s".toList],
        .dir "vendor".toList [.dir "c".toList [.file "z.s".toList]]]
      (oneFile "r/b/y.s".toList "RET".toList).fs (by decide),
    by decide, by decide⟩

/-- C9: every path passed to `processFile` ends in the suffix `.s` and is the
path of a non-directory entry of the tree; the callback never calls
`processFile` for a directory or for a path without the suffix, such as
`foo.S` or `foo.txt`. -/
theorem run_processes_only_s_files (dryRun : Bool) (args : List Str)
    (entries : List DirEntry) (fs : FileSys) :
    (∀ p ∈ calls (run dryRun args entries ⟨fs, []⟩).2.trace,
      ".s".toList <:+ p ∧ p ∈ filePaths ['.'] entries) ∧
    (∀ (root path : Str) (d : DirEntry) (err : Option Err) (w : World),
      d.IsDir = true ∨ ¬ ".s".toList <:+ path →
      calls (visit dryRun root path d err w).2.trace = calls w.trace) ∧
    ¬ ".s".toList <:+ "foo.S".toList ∧ ¬ ".s".toList <:+ "foo.txt".toList := by
  refine ⟨?_, ?_, ?_, ?_⟩
  · rcases run_world dryRun args entries ⟨fs, []⟩ with h | ⟨root, _, h⟩
    · rw [h]
      intro p hp
      simp [calls] at hp
    · rw [h]
      refine walkDir_invariant (visit dryRun root)
        (fun name d => ∀ p ∈ filePathsOf name d, p ∈ filePaths ['.'] entries)
        (fun w => ∀ p ∈ calls w.trace, ".s".toList <:+ p ∧ p ∈ filePaths ['.'] entries)
        ?_ ?_ (.dir ['.'] entries) ['.'] _ ?_ ?_
      · intro name d err w hq hi
        rcases visit_trace dryRun root name d err w with hw | ⟨_, hd, hs, hc, _⟩
        · rw [hw]; exact hi
        · intro p hp
          rw [hc, List.mem_append, List.mem_singleton] at hp
          rcases hp with hp | rfl
          · exact hi p hp
          · refine ⟨(HasSuffix_iff _ _).1 hs, hq _ ?_⟩
            cases d with
            | file n => simp [filePathsOf]
            | baddir n => simp [DirEntry.IsDir] at hd
            | dir n sub => simp [DirEntry.IsDir] at hd
      · intro name n sub w hq _ d hd p hp
        apply hq
        rw [filePathsOf]
        exact filePathsOf_subset name sub d hd p hp
      · intro p hp
        rw [filePathsOf] at hp
        exact hp
      · intro p hp
        simp [calls, World.emit] at hp
  · intro root path d err w h
    rcases visit_trace dryRun root path d err w with hw | ⟨_, hd, hs, _, _⟩
    · rw [hw]
    · rcases h with h | h
      · rw [hd] at h
        exact absurd h (by decide)
      · exact absurd ((HasSuffix_iff _ _).1 hs) h
  · rw [← HasSuffix_iff]
    decide
  · rw [← HasSuffix_iff]
    decide

/-- C5: the flag defaults to dry-run, and in dry-run mode a run leaves the file
system, contents and permission bits, exactly as it was and issues no stat, read
or write; the same holds for each call of `processFile`. -/
theorem run_dry_run_pure (args : List Str) (entries : List DirEntry) (fs : FileSys) :
    dryRunDefault = true ∧
    (run true args entries ⟨fs, []⟩).2.fs = fs ∧
    (∀ e ∈ (run true args entries ⟨fs, []⟩).2.trace, e.isRewriteOp = false) ∧
    (∀ (root path : Str) (w : World), (processFile true root path w).2.fs = w.fs) := by
  have hpf : ∀ (root path : Str) (w : World), (processFile true root path w).2.fs = w.fs := by
    intro root path w
    obtain ⟨_, _, _, _, h⟩ := processFile_trace true root path w
    exact (h rfl).1
  have key : (run true args entries ⟨fs, []⟩).2.fs = fs ∧
      ∀ e ∈ (run true args entries ⟨fs, []⟩).2.trace, e.isRewriteOp = false := by
    rcases run_world true args entries ⟨fs, []⟩ with h | ⟨root, _, h⟩
    · rw [h]
      exact ⟨rfl, by simp⟩
    · rw [h]
      refine walkDir_invariant (visit true root) (fun _ _ => True)
        (fun w => w.fs = fs ∧ ∀ e ∈ w.trace, e.isRewriteOp = false)
        ?_ (fun _ _ _ _ _ _ _ _ => trivial) (.dir ['.'] entries) ['.'] _ trivial ?_
      · intro name d err w _ hi
        rcases visit_cases true root name d err w with hw | ⟨_, _, _, _, hw⟩
        · rw [hw]; exact hi
        · obtain ⟨evs, htr, _, _, hdry⟩ :=
            processFile_trace true root name (w.emit (.logAssemblyFile name))
          rw [hw]
          refine ⟨by rw [(hdry rfl).1]; exact hi.1, ?_⟩
          rw [htr]
          intro e he
          rcases List.mem_append.1 he with he | he
          · simp only [World.emit, List.mem_append, List.mem_singleton] at he
            rcases he with he | rfl
            · exact hi.2 e he
            · rfl
          · exact (hdry rfl).2 e he
      · refine ⟨rfl, ?_⟩
        intro e he
        simp only [World.emit, List.nil_append, List.mem_singleton] at he
        subst he
        rfl
  exact ⟨rfl, key.1, key.2, hpf⟩

/-- Evaluation for C6: a regular file named `vendor` at the root, listed before
`x.s`, makes the walk skip the rest of the root listing: `x.s` is never
processed and the run succeeds, while without that file the run fails on
`x.s`. -/
theorem root_s_file_after_vendor_file :
    (run false ["r".toList] [.file "vendor".toList, .file "x.s".toList] noFiles).1 = none ∧
    calls (run false ["r".toList] [.file "vendor".toList, .file "x.s".toList]
      noFiles).2.trace = [] ∧
    (run false ["r".toList] [.file "x.s".toList] noFiles).1 =
      some (.processing "x.s".toList .what) := by
  decide

/-- Evaluation for C8: in directory `a` the regular file `vendor` is listed
before `x.s`; the run ends without error, `a/x.s` is not passed to
`processFile` and keeps its content, although no ancestor of it is named
`vendor`; without the file `vendor` it is processed. -/
theorem s_file_after_vendor_file_skipped :
    (run false ["r".toList] [.dir "a".toList [.file "vendor".toList, .file "x.s".toList]]
      (oneFile "r/a/x.s".toList "CALL a·f(SB)".toList)).1 = none ∧
    calls (run false ["r".toList] [.dir "a".toList [.file "vendor".toList, .file "x.s".toList]]
      (oneFile "r/a/x.s".toList "CALL a·f(SB)".toList)).2.trace = [] ∧
    (run false ["r".toList] [.dir "a".toList [.file "vendor".toList, .file "x.s".toList]]
      (oneFile "r/a/x.s".toList "CALL a·f(SB)".toList)).2.fs "r/a/x.s".toList =
        some ⟨420, "CALL a·f(SB)".toList⟩ ∧
    "vendor".toList ∉ Split "a/x.s".toList '/' ∧
    calls (run false ["r".toList] [.dir "a".toList [.file "x.s".toList]]
      (oneFile "r/a/x.s".toList "CALL a·f(SB)".toList)).2.trace = ["a/x.s".toList] := by
  decide

mutual
/-- A property of results that holds of every result of `fn` and of every
success holds of the result of the walk. -/
theorem walkDir_result (fn : WalkDirFunc) (P : Option Err × World → Prop)
    (hfn : ∀ name d w, P (fn name d none w) ∧ P (fn name d (some (.readDir name)) w))
    (hnone : ∀ w, P (none, w)) :
    ∀ (d : DirEntry) (name : Str) (w : World), P (walkDir fn name d w)
  | .file n, name, w => by
    rw [walkDir]
    exact (hfn name _ w).1
  | .baddir n, name, w => by
    rw [walkDir]
    have h1 := (hfn name (.baddir n) w).1
    split
    · rename_i e w1 heq
      rw [heq] at h1
      split
      · exact hnone w1
      · exact h1
    · rename_i w1 heq
      have h2 := (hfn name (.baddir n) w1).2
      split
      · rename_i e2 w2 heq2
        rw [heq2] at h2
        split
        · exact hnone w2
        · exact h2
      · exact hnone _
  | .dir n entries, name, w => by
    rw [walkDir]
    have h1 := (hfn name (.dir n entries) w).1
    split
    · rename_i e w1 heq
      rw [heq] at h1
      split
      · exact hnone w1
      · exact h1
    · exact walkDirs_result fn P hfn hnone entries name _
/-- The same along the listing of a directory. -/
theorem walkDirs_result (fn : WalkDirFunc) (P : Option Err × World → Prop)
    (hfn : ∀ name d w, P (fn name d none w) ∧ P (fn name d (some (.readDir name)) w))
    (hnone : ∀ w, P (none, w)) :
    ∀ (entries : List DirEntry) (name : Str) (w : World), P (walkDirs fn name entries w)
  | [], name, w => by
    rw [walkDirs]
    exact hnone w
  | d1 :: rest, name, w => by
    rw [walkDirs]
    have h1 := walkDir_result fn P hfn hnone d1 (pathJoin name d1.Name) w
    split
    · rename_i e w1 heq
      rw [heq] at h1
      split
      · exact hnone w1
      · exact h1
    · exact walkDirs_result fn P hfn hnone rest name _
end

/-- Fail-fast: an error returned by `run` is the usage error, the error of an
unreadable directory, or wraps the error of a `processFile` call on a path
ending in `.s`, and then the world at the end of the run is the world that call
left: nothing is processed or modified after the failing file. -/
theorem run_fail_fast (dryRun : Bool) (args : List Str) (entries : List DirEntry) (w : World)
    (e : Err) (he : (run dryRun args entries w).1 = some e) :
    e = .usage ∨ (∃ name, e = .readDir name) ∨
      ∃ root path e1 w1, args = [root] ∧ e = .processing path e1 ∧
        HasSuffix path ".s".toList = true ∧
        processFile dryRun root path w1 = (some e1, (run dryRun args entries w).2) := by
  rcases args with _ | ⟨root, _ | ⟨a2, rest⟩⟩
  · left
    simpa [run] using he.symm
  · right
    have key := walkDir_result (visit dryRun root)
      (fun r => ∀ e, r.1 = some e → e = .SkipDir ∨ (∃ name, e = .readDir name) ∨
        ∃ path e1 w1, e = .processing path e1 ∧ HasSuffix path ".s".toList = true ∧
          processFile dryRun root path w1 = (some e1, r.2))
      ?_ (fun _ _ h => by simp at h) (.dir ['.'] entries) ['.']
      (w.emit (.logProcessing root))
    · simp only [run, WalkDir] at he ⊢
      split at he
      · rename_i e0 w1 heq
        rw [heq] at key
        split at he
        · simp at he
        · rename_i hne
          simp only [Option.some.injEq] at he
          subst he
          rcases key e0 rfl with h | h | ⟨path, e1, w2, h1, h2, h3⟩
          · exact absurd (Or.inl h) hne
          · exact Or.inl h
          · refine Or.inr ⟨root, path, e1, w2, rfl, h1, h2, ?_⟩
            rw [if_neg hne]
            exact h3
      · simp at he
    · intro name d w0
      constructor
      · intro e0 h0
        simp only [visit] at h0 ⊢
        split at h0
        · left; simpa using h0.symm
        · split at h0
          · simp at h0
          · split at h0
            · simp at h0
            · rename_i hv hd hs
              split at h0
              · rename_i e1 w1 heq
                right; right
                refine ⟨name, e1, w0.emit (.logAssemblyFile name), by simpa using h0.symm,
                  by simpa using hs, ?_⟩
                rw [if_neg hv, if_neg hd, if_neg hs]
                exact heq
              · simp at h0
      · intro e0 h0
        right; left
        exact ⟨name, by simpa [visit] using h0.symm⟩
  · left
    simpa [run] using he.symm

/-! ## Completeness of the walk when no regular file is named `vendor` -/

theorem visit_call (dryRun : Bool) (root path : Str) (d : DirEntry) (w : World)
    (hv : d.Name ≠ "vendor".toList) (hd : d.IsDir = false)
    (hs : HasSuffix path ".s".toList = true) :
    calls (visit dryRun root path d none w).2.trace = calls w.trace ++ [path] ∧
    (visit dryRun root path d none w).1 ≠ some .SkipDir := by
  have hd1 : ¬ d.IsDir = true := by simp [hd]
  have hs1 : ¬ (!HasSuffix path ".s".toList) = true := by rw [hs]; decide
  obtain ⟨evs, htr, hc, _, _⟩ :=
    processFile_trace dryRun root path (w.emit (.logAssemblyFile path))
  simp only [visit]
  rw [if_neg hv, if_neg hd1, if_neg hs1]
  split
  · rename_i e w1 heq
    rw [heq] at htr
    simp only at htr
    refine ⟨?_, by simp⟩
    simp only
    rw [htr, calls_append, hc]
    simp [World.emit, calls]
  · rename_i w1 heq
    rw [heq] at htr
    simp only at htr
    refine ⟨?_, by simp⟩
    simp only
    rw [htr, calls_append, hc]
    simp [World.emit, calls]

theorem visit_dir (dryRun : Bool) (root path : Str) (d : DirEntry) (w : World)
    (hv : d.Name ≠ "vendor".toList) (hd : d.IsDir = true) :
    visit dryRun root path d none w = (none, w) := by
  simp only [visit]
  rw [if_neg hv, if_pos hd]

theorem visit_no_suffix (dryRun : Bool) (root path : Str) (d : DirEntry) (w : World)
    (hv : d.Name ≠ "vendor".toList) (hd : d.IsDir = false)
    (hs : HasSuffix path ".s".toList = false) :
    visit dryRun root path d none w = (none, w) := by
  simp only [visit]
  rw [if_neg hv, if_neg (by simp [hd]), if_pos (by rw [hs]; rfl)]

mutual
/-- Below an entry whose path is not `.`, every file path extends the path of
the entry by further components. -/
theorem Split_filePathsOf (d : DirEntry) (name : Str) (hv : validName d = true)
    (hname : name ≠ ['.']) :
    ∀ p ∈ filePathsOf name d, ∀ c ∈ Split name '/', c ∈ Split p '/' :=
  match d with
  | .file n => by
    intro p hp c hc
    simp only [filePathsOf, List.mem_singleton] at hp
    rw [hp]
    exact hc
  | .baddir n => by
    intro p hp
    simp [filePathsOf] at hp
  | .dir n entries => by
    intro p hp
    rw [filePathsOf] at hp
    exact Split_filePaths entries name (validNames_of_dir n entries hv) hname p hp
/-- The same for a listing. -/
theorem Split_filePaths (entries : List DirEntry) (name : Str)
    (hv : validNames entries = true) (hname : name ≠ ['.']) :
    ∀ p ∈ filePaths name entries, ∀ c ∈ Split name '/', c ∈ Split p '/' :=
  match entries with
  | [] => by
    intro p hp
    simp [filePaths] at hp
  | d :: rest => by
    intro p hp c hc
    rw [validNames, Bool.and_eq_true] at hv
    rw [filePaths, List.mem_append] at hp
    rcases hp with hp | hp
    · have hj : pathJoin name d.Name ≠ ['.'] := by
        rw [pathJoin, if_neg hname]
        intro h
        cases name with
        | nil => simp at h
        | cons a rest1 => simp at h
      apply Split_filePathsOf d (pathJoin name d.Name) hv.1 hj p hp
      rw [Split_pathJoin name d.Name (slash_not_mem_Name d hv.1), if_neg hname]
      exact List.mem_append_left _ hc
    · exact Split_filePaths rest name hv.2 hname p hp c hc
end

theorem visit_baddir (dryRun : Bool) (root name n : Str) (w : World) :
    walkDir (visit dryRun root) name (.baddir n) w = (none, w) ∨
    walkDir (visit dryRun root) name (.baddir n) w = (some (.readDir name), w) := by
  rw [walkDir]
  by_cases hv : n = "vendor".toList
  · left
    have h1 : visit dryRun root name (.baddir n) none w = (some .SkipDir, w) := by
      simp only [visit]
      rw [if_pos (by simpa [DirEntry.Name] using hv)]
    rw [h1]
    simp
  · right
    have h1 : visit dryRun root name (.baddir n) none w = (none, w) :=
      visit_dir dryRun root name _ w (by simpa [DirEntry.Name] using hv) rfl
    rw [h1]
    simp [visit]

mutual
/-- In a tree with valid names and no regular file named `vendor`, the walk of
an entry never returns `SkipDir`, keeps earlier calls, and, when it succeeds on
an entry not named `vendor`, has called `processFile` on every file path at
or below it that ends in `.s` and has no `vendor` component. -/
theorem walkDir_complete (dryRun : Bool) (root : Str) (d : DirEntry) (name : Str) (w : World)
    (hval : validName d = true) (hnv : noVendorFile d = true) :
    (walkDir (visit dryRun root) name d w).1 ≠ some .SkipDir ∧
    (∀ p ∈ calls w.trace, p ∈ calls (walkDir (visit dryRun root) name d w).2.trace) ∧
    ((walkDir (visit dryRun root) name d w).1 = none → d.Name ≠ "vendor".toList →
      ∀ p ∈ filePathsOf name d, HasSuffix p ".s".toList = true →
        "vendor".toList ∉ Split p '/' →
        p ∈ calls (walkDir (visit dryRun root) name d w).2.trace) :=
  match d with
  | .file n => by
    have hn : (DirEntry.file n).Name ≠ "vendor".toList := by
      simpa [noVendorFile, DirEntry.Name] using hnv
    rw [walkDir]
    cases hs : HasSuffix name ".s".toList with
    | true =>
      obtain ⟨hc, hne⟩ := visit_call dryRun root name (.file n) w hn rfl hs
      refine ⟨hne, ?_, ?_⟩
      · intro p hp
        rw [hc]
        exact List.mem_append_left _ hp
      · intro _ _ p hp _ _
        simp only [filePathsOf, List.mem_singleton] at hp
        rw [hc, hp]
        simp
    | false =>
      rw [visit_no_suffix dryRun root name (.file n) w hn rfl hs]
      refine ⟨by simp, fun p hp => hp, ?_⟩
      intro _ _ p hp hsp _
      simp only [filePathsOf, List.mem_singleton] at hp
      rw [hp, hs] at hsp
      exact absurd hsp (by decide)
  | .baddir n => by
    rcases visit_baddir dryRun root name n w with h | h
    · rw [h]
      exact ⟨by simp, fun p hp => hp, fun _ _ p hp => by simp [filePathsOf] at hp⟩
    · rw [h]
      exact ⟨by simp, fun p hp => hp, fun _ _ p hp => by simp [filePathsOf] at hp⟩
  | .dir n entries => by
    rw [walkDir]
    by_cases hv : n = "vendor".toList
    · have h1 : visit dryRun root name (.dir n entries) none w = (some .SkipDir, w) := by
        simp only [visit]
        rw [if_pos (by simpa [DirEntry.Name] using hv)]
      rw [h1]
      refine ⟨by simp, fun p hp => by simpa using hp, ?_⟩
      intro _ hne
      exact absurd hv (by simpa [DirEntry.Name] using hne)
    · rw [visit_dir dryRun root name (.dir n entries) w
        (by simpa [DirEntry.Name] using hv) rfl]
      have ih := walkDirs_complete dryRun root entries name w
        (validNames_of_dir n entries hval) (by simpa [noVendorFile] using hnv)
      refine ⟨ih.1, ih.2.1, ?_⟩
      intro hok _ p hp
      rw [filePathsOf] at hp
      exact ih.2.2 hok p hp
/-- The same for the listing of a directory. -/
theorem walkDirs_complete (dryRun : Bool) (root : Str) (entries : List DirEntry) (name : Str)
    (w : World) (hval : validNames entries = true) (hnv : noVendorFiles entries = true) :
    (walkDirs (visit dryRun root) name entries w).1 ≠ some .SkipDir ∧
    (∀ p ∈ calls w.trace, p ∈ calls (walkDirs (visit dryRun root) name entries w).2.trace) ∧
    ((walkDirs (visit dryRun root) name entries w).1 = none →
      ∀ p ∈ filePaths name entries, HasSuffix p ".s".toList = true →
        "vendor".toList ∉ Split p '/' →
        p ∈ calls (walkDirs (visit dryRun root) name entries w).2.trace) :=
  match entries with
  | [] => by
    rw [walkDirs]
    exact ⟨by simp, fun p hp => hp, fun _ p hp => by simp [filePaths] at hp⟩
  | d1 :: rest => by
    rw [validNames, Bool.and_eq_true] at hval
    rw [noVendorFiles, Bool.and_eq_true] at hnv
    have ih1 := walkDir_complete dryRun root d1 (pathJoin name d1.Name) w hval.1 hnv.1
    rw [walkDirs]
    split
    · rename_i e w1 heq
      rw [heq] at ih1
      have hne : e ≠ .SkipDir := fun h => ih1.1 (by rw [h])
      rw [if_neg hne]
      exact ⟨by simpa using hne, ih1.2.1, fun h => by simp at h⟩
    · rename_i w1 heq
      rw [heq] at ih1
      have ih2 := walkDirs_complete dryRun root rest name w1 hval.2 hnv.2
      refine ⟨ih2.1, fun p hp => ih2.2.1 p (ih1.2.1 p hp), ?_⟩
      intro hok p hp hsp hvp
      rw [filePaths, List.mem_append] at hp
      rcases hp with hp | hp
      · apply ih2.2.1
        refine ih1.2.2 rfl ?_ p hp hsp hvp
        intro hvd
        apply hvp
        have hj : pathJoin name d1.Name ≠ ['.'] := by
          rw [hvd, pathJoin]
          split
          · decide
          · intro h
            cases name with
            | nil => simp at h
            | cons a rest1 => simp at h
        apply Split_filePathsOf d1 (pathJoin name d1.Name) hval.1 hj p hp
        rw [Split_pathJoin name d1.Name (slash_not_mem_Name d1 hval.1), hvd]
        split <;> simp
      · exact ih2.2.2 hok p hp hsp hvp
end

theorem walkDir_ne_SkipAll (dryRun : Bool) (root : Str) (d : DirEntry) (name : Str)
    (w : World) : (walkDir (visit dryRun root) name d w).1 ≠ some .SkipAll := by
  refine walkDir_result (visit dryRun root) (fun r => r.1 ≠ some .SkipAll) ?_
    (fun _ => by simp) d name w
  intro nm d0 w0
  constructor
  · simp only [visit]
    split
    · simp
    · split
      · simp
      · split
        · simp
        · split <;> simp
  · simp [visit]

/-- Completeness of the walk, for trees in which no regular file is named
`vendor`: a run that ends without error has passed to `processFile` every
file whose path ends in `.s` and has no component named `vendor`. -/
theorem run_complete (dryRun : Bool) (root : Str) (entries : List DirEntry) (w : World)
    (hval : validNames entries = true) (hnv : noVendorFiles entries = true)
    (hok : (run dryRun [root] entries w).1 = none) :
    ∀ p ∈ filePaths ['.'] entries, ".s".toList <:+ p → "vendor".toList ∉ Split p '/' →
      p ∈ calls (run dryRun [root] entries w).2.trace := by
  have hc := walkDir_complete dryRun root (.dir ['.'] entries) ['.']
    (w.emit (.logProcessing root)) (by rw [validName, hval]; rfl)
    (by rw [noVendorFile, hnv])
  have hall := walkDir_ne_SkipAll dryRun root (.dir ['.'] entries) ['.']
    (w.emit (.logProcessing root))
  have hw : (run dryRun [root] entries w).2 =
      (walkDir (visit dryRun root) ['.'] (.dir ['.'] entries)
        (w.emit (.logProcessing root))).2 := by
    rw [run, WalkDir_world]
  have hres : (walkDir (visit dryRun root) ['.'] (.dir ['.'] entries)
      (w.emit (.logProcessing root))).1 = none := by
    simp only [run, WalkDir] at hok
    split at hok
    · rename_i e w1 heq
      rw [heq] at hc hall
      split at hok
      · rename_i h
        rcases h with h | h
        · exact absurd (by rw [h]) hc.1
        · exact absurd (by rw [h]) hall
      · simp at hok
    · rename_i w1 heq
      rw [heq]
  intro p hp hsp hvp
  rw [hw]
  refine hc.2.2 hres (by rw [DirEntry.Name]; decide) p ?_ ((HasSuffix_iff _ _).2 hsp) hvp
  rw [filePathsOf]
  exact hp

/-- An instance of `run_complete`: both assembly files outside `vendor` are
processed. -/
theorem run_complete_example :
    calls (run true ["r".toList]
      [.dir "a".toList [.file "x.s".toList, .file "y.txt".toList],
        .dir "vendor".toList [.file "v.s".toList], .dir "z".toList [.file "w.s".toList]]
      ⟨fun p => some ⟨420, p⟩, []⟩).2.trace = ["a/x.s".toList, "z/w.s".toList] ∧
    ∀ p ∈ filePaths ['.']
        [.dir "a".toList [.file "x.s".toList, .file "y.txt".toList],
          .dir "vendor".toList [.file "v.s".toList], .dir "z".toList [.file "w.s".toList]],
      ".s".toList <:+ p → "vendor".toList ∉ Split p '/' →
      p ∈ calls (run true ["r".toList]
        [.dir "a".toList [.file "x.s".toList, .file "y.txt".toList],
          .dir "vendor".toList [.file "v.s".toList], .dir "z".toList [.file "w.s".toList]]
        ⟨fun p => some ⟨420, p⟩, []⟩).2.trace :=
  ⟨by decide,
    run_complete true "r".toList
      [.dir "a".toList [.file "x.s".toList, .file "y.txt".toList],
        .dir "vendor".toList [.file "v.s".toList], .dir "z".toList [.file "w.s".toList]]
      ⟨fun p => some ⟨420, p⟩, []⟩ (by decide) (by decide) (by decide)⟩

/-- Without `QuoteMeta` the identifier `a.b+` would be read as a pattern and
match other text; quoted, it matches only itself. -/
theorem quoting_matters :
    (MustCompile ("a.b+".toList ++ ['·'])).map
      (fun re => MatchString re "CALL axbb·h(SB)".toList) = some true ∧
    (MustCompile (QuoteMeta "a.b+".toList ++ ['·'])).map
      (fun re => MatchString re "CALL axbb·h(SB)".toList) = some false ∧
    (MustCompile (QuoteMeta "a.b+".toList ++ ['·'])).map
      (fun re => MatchString re "CALL a.b+·h(SB)".toList) = some true := by
  decide

end FixAsm
